import Mathlib

/-!
Verification of the LexiPathEngine subsystem (DynamicDirectedGraph + LexiSSSP):
a dynamic directed graph store with soft deletion and a lazily recomputed
lexicographic (sum, then max-edge) single-source shortest-path engine.

The embedding mirrors `src/LexiPathEngine.cpp` / `include/LexiPathEngine.h`:
  * C++ `int` / `long long` values are modelled as `Int`; the sentinels
    `INF = 1 << 62` and `std::numeric_limits<int>::max()` are explicit constants.
  * `std::vector` fields become `List`s; an indexed access that C++ performs
    with a negative (or never-issued) index — undefined behaviour — makes the
    modelled operation return `none`.
  * the `unordered_map` bucket is a total map from keys to id stacks: both a
    failed `find` and `operator[]` default-insertion read as `[]`, entries are
    never erased and never iterated, so this is observation-equivalent.
  * `std::priority_queue<PQItem>` pops the lexicographically smallest
    `(dist, bottleneck)` entry; the pop order among exactly-equal keys is not
    specified by `PQItem::operator<`, and is modelled here as FIFO via a
    sorted insertion.  No label computed by the traversal depends on the
    order chosen among equal keys.
  * the `while (!pq.empty())` loop is given explicit fuel
    (`edgeCount + 1`); exhausted fuel (which cannot happen for the
    non-negative-weight states the engine is specified for, as proved below)
    models non-termination as `none`.
-/


set_option maxRecDepth 10000

namespace LexiPath

/-- Edge record `DynamicDirectedGraph::Edge`: endpoints, weight and the
soft-deletion flag. -/
structure Edge where
  u : Int
  v : Int
  w : Int
  alive : Bool
deriving Repr, DecidableEq

/-- State of `DynamicDirectedGraph`: `edges` is the append-only arena `edges_`
(indexed by stable edge id), `adj` is `adj_`, and `bucket` models
`bucket_ : unordered_map<Key, vector<int>>` as a total map (missing key = `[]`). -/
structure DynamicDirectedGraph where
  edges : List Edge
  adj : List (List Nat)
  bucket : Int × Int × Int → List Nat

/-- Constructor `DynamicDirectedGraph(n_initial)`: allocates `adj_` of size
`n_initial + 1` (1-based convenience), no edges, empty buckets. -/
def mkGraph (n : Int) : DynamicDirectedGraph :=
  ⟨[], List.replicate (n + 1).toNat [], fun _ => []⟩

namespace DynamicDirectedGraph

/-- `ensureNode(x)`: grow `adj_` so that index `x` is addressable; no-op for
negative `x` or when already covered. -/
def ensureNode (g : DynamicDirectedGraph) (x : Int) : DynamicDirectedGraph :=
  if x < 0 then g
  else if g.adj.length < x.toNat + 1 then
    { g with adj := g.adj ++ List.replicate (x.toNat + 1 - g.adj.length) [] }
  else g

/-- `addEdge(u, v, w)`: grow capacity for both endpoints, append an alive edge
record, append its id to `adj_[u]` and to the `(u,v,w)` bucket.  For `u < 0`
the C++ write `adj_[size_t(u)]` is an out-of-bounds access (undefined
behaviour), modelled as `none`. -/
def addEdge (g : DynamicDirectedGraph) (u v w : Int) :
    Option (DynamicDirectedGraph × Nat) :=
  if u < 0 then none
  else
    let g1 := (g.ensureNode u).ensureNode v
    let id := g1.edges.length
    some ({ g1 with
      edges := g1.edges ++ [⟨u, v, w, true⟩],
      adj := g1.adj.set u.toNat (g1.adj.getD u.toNat [] ++ [id]),
      bucket := fun k => if k = (u, v, w) then g1.bucket k ++ [id] else g1.bucket k },
      id)

/-- `removeEdge(u, v, w)`: if the `(u,v,w)` bucket is empty (or absent) return
`false` with no effect; otherwise pop the most recently pushed id and mark the
corresponding record dead.  A popped id outside the arena would be undefined
behaviour in C++; it cannot occur (see `BucketInv`) and is modelled as leaving
the arena unchanged. -/
def removeEdge (g : DynamicDirectedGraph) (u v w : Int) :
    DynamicDirectedGraph × Bool :=
  match (g.bucket (u, v, w)).getLast? with
  | none => (g, false)
  | some id =>
    ({ g with
       edges := match g.edges.get? id with
                | some e => g.edges.set id { e with alive := false }
                | none => g.edges,
       bucket := fun k =>
         if k = (u, v, w) then (g.bucket (u, v, w)).dropLast else g.bucket k },
     true)

/-- `outEdges(u)`: the full historical adjacency sequence of `u`, or `[]` for
a negative or out-of-range id. -/
def outEdges (g : DynamicDirectedGraph) (u : Int) : List Nat :=
  if 0 ≤ u ∧ u.toNat < g.adj.length then g.adj.getD u.toNat [] else []

/-- `edgeById(id)`: lookup by stable id; `none` models the undefined behaviour
for an id never issued by this store. -/
def edgeById (g : DynamicDirectedGraph) (id : Nat) : Option Edge :=
  g.edges.get? id

/-- `nodeCapacity()`: `adj_.size() - 1` (1-based capacity). -/
def nodeCapacity (g : DynamicDirectedGraph) : Int :=
  (g.adj.length : Int) - 1

/-- `edgeCount()`: number of edges ever added. -/
def edgeCount (g : DynamicDirectedGraph) : Nat :=
  g.edges.length

end DynamicDirectedGraph

/-- `LexiSSSP::INF = 1LL << 62`. -/
def INF : Int := 4611686018427387904

/-- `std::numeric_limits<int>::max()`, the initial `bestMax_` filler. -/
def INTMAX : Int := 2147483647

/-- `LexiSSSP::PQItem`: total path sum, maximum edge weight, node index. -/
structure PQItem where
  d : Int
  b : Int
  v : Int
deriving Repr, DecidableEq

/-- Engine state `LexiSSSP`: graph, fixed source, cached labels, dirty flag. -/
structure LexiSSSP where
  g : DynamicDirectedGraph
  S : Int
  dist : List Int
  bestMax : List Int
  dirty : Bool

/-- Constructor `LexiSSSP(g, S)`: label arrays sized `nodeCapacity + 1`,
filled with the sentinels, dirty so the first ASK recomputes. -/
def mkLexiSSSP (g : DynamicDirectedGraph) (S : Int) : LexiSSSP :=
  ⟨g, S, List.replicate (g.nodeCapacity + 1).toNat INF,
   List.replicate (g.nodeCapacity + 1).toNat INTMAX, true⟩

/-- `std::vector::resize(n, v)`: truncate to `n` or pad with `v` up to `n`. -/
def resizeL (l : List Int) (n : Nat) (v : Int) : List Int :=
  l.take n ++ List.replicate (n - l.length) v

/-- The relaxation acceptance test from `LexiSSSP::recompute`:
`nd < dist_[v] || (nd == dist_[v] && nb < bestMax_[v])`. -/
def accepts (dv bv nd nb : Int) : Prop :=
  nd < dv ∨ (nd = dv ∧ nb < bv)

instance (dv bv nd nb : Int) : Decidable (accepts dv bv nd nb) := by
  unfold accepts; infer_instance

/-- Insertion into the priority structure keyed lexicographically on
`(d, b)` (smaller first), mirroring the pop order of
`std::priority_queue<PQItem>`; among exactly equal keys the C++ heap order is
unspecified and modelled as FIFO. -/
def pqInsert (x : PQItem) : List PQItem → List PQItem
  | [] => [x]
  | y :: ys =>
    if y.d < x.d ∨ (y.d = x.d ∧ y.b ≤ x.b) then y :: pqInsert x ys
    else x :: y :: ys

namespace LexiSSSP

/-- `LexiSSSP::growToInclude(x)`: keep the graph consistent first, then grow
both label arrays (guarded, as in the source, by `dist_.size() < need`). -/
def growToInclude (e : LexiSSSP) (x : Int) : LexiSSSP :=
  if x < 0 then e
  else
    let g' := e.g.ensureNode x
    let need := x.toNat + 1
    if e.dist.length < need then
      { e with
        g := g',
        dist := resizeL e.dist need INF,
        bestMax := resizeL e.bestMax need INTMAX }
    else { e with g := g' }

/-- `LexiSSSP::addEdgeCmd`: delegate to the store, grow labels to cover both
endpoints, unconditionally mark dirty. -/
def addEdgeCmd (e : LexiSSSP) (u v w : Int) : Option LexiSSSP :=
  (e.g.addEdge u v w).map fun gp =>
    let e1 : LexiSSSP := { e with g := gp.1 }
    let e2 := e1.growToInclude (max u v)
    { e2 with dirty := true }

/-- `LexiSSSP::removeEdgeCmd`: delegate to the store, mark dirty only when an
edge was actually removed. -/
def removeEdgeCmd (e : LexiSSSP) (u v w : Int) : LexiSSSP :=
  let gr := e.g.removeEdge u v w
  { e with g := gr.1, dirty := if gr.2 then true else e.dirty }

/-- `LexiSSSP::touch()`: explicit invalidation. -/
def touch (e : LexiSSSP) : LexiSSSP :=
  { e with dirty := true }

end LexiSSSP

/-- The edge-relaxation sweep `for (int eid : g_.outEdges(cur.v))` of one
dequeued entry: skip dead edges, otherwise form the candidate
`(cur.dist + w, max(cur.bottleneck, w))` and accept per `accepts`, pushing a
fresh entry on acceptance.  A relaxation target whose index the label arrays
cannot address would be undefined behaviour (`none`). -/
def relaxAll (g : DynamicDirectedGraph) (cur : PQItem) :
    List Nat → List PQItem → List Int → List Int →
    Option (List PQItem × List Int × List Int)
  | [], pq, dist, bm => some (pq, dist, bm)
  | eid :: rest, pq, dist, bm =>
    match g.edges.get? eid with
    | none => none
    | some e =>
      if e.alive = false then relaxAll g cur rest pq dist bm
      else
        let nd := cur.d + e.w
        let nb := max cur.b e.w
        if 0 ≤ e.v ∧ e.v.toNat < dist.length ∧ e.v.toNat < bm.length then
          if accepts (dist.getD e.v.toNat 0) (bm.getD e.v.toNat 0) nd nb then
            relaxAll g cur rest (pqInsert ⟨nd, nb, e.v⟩ pq)
              (dist.set e.v.toNat nd) (bm.set e.v.toNat nb)
          else relaxAll g cur rest pq dist bm
        else none

/-- The `while (!pq.empty())` loop of `LexiSSSP::recompute`: pop the smallest
entry, drop it if stale (its label has been improved since it was pushed),
otherwise relax all outgoing edges.  `fuel` bounds the number of pops;
exhaustion models non-termination. -/
def dijkstra (g : DynamicDirectedGraph) :
    Nat → List PQItem → List Int → List Int → Option (List Int × List Int)
  | _, [], dist, bm => some (dist, bm)
  | 0, _ :: _, _, _ => none
  | fuel + 1, cur :: pq, dist, bm =>
    if 0 ≤ cur.v ∧ cur.v.toNat < dist.length ∧ cur.v.toNat < bm.length then
      if cur.d = dist.getD cur.v.toNat 0 ∧ cur.b = bm.getD cur.v.toNat 0 then
        match relaxAll g cur (g.outEdges cur.v) pq dist bm with
        | some (pq', dist', bm') => dijkstra g fuel pq' dist' bm'
        | none => none
      else dijkstra g fuel pq dist bm
    else none

namespace LexiSSSP

/-- The two `std::fill` calls of `LexiSSSP::recompute`: reset both label
arrays to their sentinels, keeping their sizes. -/
def refillLabels (e : LexiSSSP) : LexiSSSP :=
  { e with
    dist := List.replicate e.dist.length INF,
    bestMax := List.replicate e.bestMax.length INTMAX }

/-- `LexiSSSP::recompute()`: grow arrays to the graph capacity, refill them
with the sentinels, grow to the source, seed the source label `(0, 0)`, then
run the lexicographic Dijkstra loop and clear the dirty flag.  A negative
source makes the seed write `dist_[size_t(S_)] = 0` an out-of-bounds access
(undefined behaviour), hence `none`. -/
def recompute (e : LexiSSSP) : Option LexiSSSP :=
  let e3 := ((e.growToInclude e.g.nodeCapacity).refillLabels).growToInclude e.S
  if 0 ≤ e.S then
    (dijkstra e3.g (e3.g.edges.length + 1) [⟨0, 0, e.S⟩]
        (e3.dist.set e.S.toNat 0) (e3.bestMax.set e.S.toNat 0)).map fun r =>
      { e3 with dist := r.1, bestMax := r.2, dirty := false }
  else none

/-- `LexiSSSP::ask(t)`: grow to cover `t`, recompute if dirty, then report the
cached bottleneck, or `-1` if the cached distance is still `INF`.  For a
negative `t` the read `dist_[size_t(t)]` is out of bounds (undefined
behaviour), hence `none`. -/
def ask (e : LexiSSSP) (t : Int) : Option (LexiSSSP × Int) :=
  let e1 := e.growToInclude t
  (if e1.dirty then e1.recompute else some e1).bind fun e2 =>
    if 0 ≤ t ∧ t.toNat < e2.dist.length then
      some (e2, if e2.dist.getD t.toNat 0 = INF then -1
                else e2.bestMax.getD t.toNat 0)
    else none

end LexiSSSP

/-- The integer answer of `ask` alone (the printed value of an `ASK` line). -/
def askVal (e : LexiSSSP) (t : Int) : Option Int :=
  (e.ask t).map fun r => r.2

/-- Mutation/query commands of the engine surface (`ADD`, `REM`, `ASK`). -/
inductive Cmd where
  | add (u v w : Int)
  | rem (u v w : Int)
  | query (t : Int)
deriving Repr, DecidableEq

/-- One command against the engine; `none` propagates undefined behaviour. -/
def execCmd (e : LexiSSSP) : Cmd → Option LexiSSSP
  | .add u v w => e.addEdgeCmd u v w
  | .rem u v w => some (e.removeEdgeCmd u v w)
  | .query t => (e.ask t).map fun r => r.1

/-- A command sequence against the engine. -/
def execCmds (e : LexiSSSP) : List Cmd → Option LexiSSSP
  | [] => some e
  | c :: cs => (execCmd e c).bind fun e' => execCmds e' cs

/-- The spec's well-formedness of a single command: identifiers and weights
are non-negative integers (spec section 6). -/
def Cmd.ok : Cmd → Prop
  | .add u v w => 0 ≤ u ∧ 0 ≤ v ∧ 0 ≤ w
  | .rem _ _ _ => True
  | .query t => 0 ≤ t

/-! ### The lexicographic label order

Labels are pairs `(distance, bottleneck)`; the engine's acceptance rule and
priority order both compare them lexicographically. -/
/-- Strict lexicographic order on labels. -/
def lexLt (a b : Int × Int) : Prop :=
  a.1 < b.1 ∨ (a.1 = b.1 ∧ a.2 < b.2)

/-- Non-strict lexicographic order on labels. -/
def lexLe (a b : Int × Int) : Prop :=
  a.1 < b.1 ∨ (a.1 = b.1 ∧ a.2 ≤ b.2)

instance (a b : Int × Int) : Decidable (lexLt a b) := by
  unfold lexLt; infer_instance

instance (a b : Int × Int) : Decidable (lexLe a b) := by
  unfold lexLe; infer_instance

/-- Extending a label along an edge of weight `w`:
`(d, b) ↦ (d + w, max b w)`, the candidate built by the relaxation. -/
def extLab (a : Int × Int) (w : Int) : Int × Int :=
  (a.1 + w, max a.2 w)

/-! ### The per-triple bucket invariant of the store

`bucket_[(u,v,w)]` holds exactly the ids of the currently-alive edge
instances with that triple, in insertion (= increasing id) order. -/
/-- Whether id `i` is a currently-alive instance of the triple `k`. -/
def bucketPred (g : DynamicDirectedGraph) (k : Int × Int × Int) (i : Nat) : Bool :=
  match g.edges.get? i with
  | some e => e.alive && decide ((e.u, e.v, e.w) = k)
  | none => false

/-- The ids the bucket of `k` must hold: the alive instances of `k`, in
increasing id order. -/
def bucketSpec (g : DynamicDirectedGraph) (k : Int × Int × Int) : List Nat :=
  (List.range g.edges.length).filter (bucketPred g k)

/-- The bucket data structure agrees with its specification at every key. -/
def BucketInv (g : DynamicDirectedGraph) : Prop :=
  ∀ k, g.bucket k = bucketSpec g k

/-! ### Paths, true lexicographic optima, and well-formedness invariants -/
/-- The weight stored for edge id `id` (only evaluated on issued ids). -/
def pathWt (g : DynamicDirectedGraph) (id : Nat) : Int :=
  ((g.edges.get? id).map Edge.w).getD 0

/-- Total weight of a path given as a list of edge ids. -/
def pathSum (g : DynamicDirectedGraph) (p : List Nat) : Int :=
  (p.map (pathWt g)).sum

/-- Maximum edge weight (bottleneck) of a path; 0 for the empty path, the
engine's neutral seed for the source. -/
def pathMax (g : DynamicDirectedGraph) (p : List Nat) : Int :=
  (p.map (pathWt g)).foldr max 0

/-- The label `(sum, bottleneck)` of a path. -/
def pathKey (g : DynamicDirectedGraph) (p : List Nat) : Int × Int :=
  (pathSum g p, pathMax g p)

/-- `IsPath g s t p`: `p` is a list of ids of alive edges forming a directed
walk from `s` to `t`. -/
inductive IsPath (g : DynamicDirectedGraph) : Int → Int → List Nat → Prop where
  | nil (s : Int) : IsPath g s s []
  | cons {u t : Int} {id : Nat} {e : Edge} {p : List Nat} :
      g.edges.get? id = some e → e.alive = true → e.u = u →
      IsPath g e.v t p → IsPath g u t (id :: p)

/-- The initial (unreached) label: `(INF, numeric_limits<int>::max())`. -/
def initLab : Int × Int := (INF, INTMAX)

/-- The pair of cached labels of node index `n` (reads out of range yield the
unreached label; they never occur on the indices the theorems speak about). -/
def labD (dist bm : List Int) (n : Nat) : Int × Int :=
  (dist.getD n INF, bm.getD n INTMAX)

/-- The priority key of a queue entry. -/
def pqKey (x : PQItem) : Int × Int := (x.d, x.b)

/-- Every stored edge has in-range non-negative endpoints and a non-negative
weight (all states reachable through well-formed commands satisfy this). -/
def EdgesInv (g : DynamicDirectedGraph) : Prop :=
  ∀ id e, g.edges.get? id = some e →
    0 ≤ e.u ∧ e.u.toNat < g.adj.length ∧ 0 ≤ e.v ∧ e.v.toNat < g.adj.length ∧
    0 ≤ e.w

/-- The adjacency index lists exactly the ids of edges leaving each node. -/
def AdjInv (g : DynamicDirectedGraph) : Prop :=
  (∀ n id, id ∈ g.adj.getD n [] →
    ∃ e, g.edges.get? id = some e ∧ e.u = (n : Int)) ∧
  (∀ id e, g.edges.get? id = some e → id ∈ g.adj.getD e.u.toNat [])

/-- Full store well-formedness. -/
def WFG (g : DynamicDirectedGraph) : Prop :=
  EdgesInv g ∧ AdjInv g ∧ BucketInv g

/-- `lab` is the lexicographic minimum of the unreached label together with
the keys of all paths from `S` to node index `n` — exactly what one
`recompute` leaves in the label arrays at `n`. -/
def OptimalAt (g : DynamicDirectedGraph) (S : Int) (n : Nat)
    (lab : Int × Int) : Prop :=
  (lab = initLab ∨ ∃ p, IsPath g S (n : Int) p ∧ pathKey g p = lab) ∧
  lexLe lab initLab ∧
  (∀ p, IsPath g S (n : Int) p → lexLe lab (pathKey g p))

/-- Engine well-formedness: store invariants, label arrays in sync with the
store, and — once the cache is clean — cached labels that are optimal. -/
def GoodEngine (e : LexiSSSP) : Prop :=
  WFG e.g ∧ e.dist.length = e.bestMax.length ∧
  e.g.adj.length ≤ e.dist.length ∧
  (e.dirty = false → 0 ≤ e.S ∧ e.S.toNat < e.dist.length ∧
    ∀ n, n < e.dist.length → OptimalAt e.g e.S n (labD e.dist e.bestMax n))

/-- Loop invariant of the Dijkstra traversal.  `B` is the key of the last
processed non-stale entry (`(0, 0)` initially): the queue is sorted by key,
entries carry genuine path keys, no key is below `B`, every label is either
untouched or the key of a genuine path and never above an entry pending for
its node, and every alive edge is relaxed (tail frozen at or below `B` and
edge stable), or leaves an unreached node, or has a pending entry carrying
its tail's current label. -/
structure DInv (g : DynamicDirectedGraph) (S : Int) (L : Nat) (B : Int × Int)
    (pq : List PQItem) (dist bm : List Int) : Prop where
  hdl : dist.length = L
  hbl : bm.length = L
  sorted : pq.Pairwise fun a b => lexLe (pqKey a) (pqKey b)
  qlow : ∀ it ∈ pq, lexLe B (pqKey it)
  qv : ∀ it ∈ pq, 0 ≤ it.v ∧ it.v.toNat < g.adj.length
  qpath : ∀ it ∈ pq, ∃ p, IsPath g S it.v p ∧ pathKey g p = pqKey it
  qlab : ∀ it ∈ pq, lexLe (labD dist bm it.v.toNat) (pqKey it)
  lsound : ∀ n, n < L → labD dist bm n = initLab ∨
    ∃ p, IsPath g S (n : Int) p ∧ pathKey g p = labD dist bm n
  linit : ∀ n, lexLe (labD dist bm n) initLab
  pend : ∀ id e, g.edges.get? id = some e → e.alive = true →
    labD dist bm e.u.toNat = initLab ∨
    (lexLe (labD dist bm e.u.toNat) B ∧
      lexLe (labD dist bm e.v.toNat) (extLab (labD dist bm e.u.toNat) e.w)) ∨
    ∃ it ∈ pq, it.v = e.u ∧ pqKey it = labD dist bm e.u.toNat

/-- Whether edge id `id` may still trigger an acceptance: alive, and not yet
permanently relaxed relative to the processed-keys bound `B`. -/
def openPred (g : DynamicDirectedGraph) (B : Int × Int) (dist bm : List Int)
    (id : Nat) : Bool :=
  match g.edges.get? id with
  | some e => e.alive &&
      !(decide (lexLe (labD dist bm e.u.toNat) B) &&
        decide (lexLe (labD dist bm e.v.toNat)
          (extLab (labD dist bm e.u.toNat) e.w)))
  | none => false

/-- Number of still-open edges: together with the queue length this bounds
the remaining number of loop iterations. -/
def openCard (g : DynamicDirectedGraph) (B : Int × Int)
    (dist bm : List Int) : Nat :=
  ((Finset.range g.edges.length).filter fun id =>
    openPred g B dist bm id = true).card

/-! ### Concrete scenarios

These mirror `runLexiEngineFromString` in `AlgorithmPlayground.cpp`: the graph
is bulk-loaded by direct `addEdge` calls, the engine is constructed over it
and `touch`ed, and each `ASK` threads the (cache-mutating) engine state. -/
/-- Bulk-load form of `addEdge` as used by the test harness (the harness only
loads non-negative ids, for which `addEdge` always succeeds). -/
def DynamicDirectedGraph.addE (g : DynamicDirectedGraph) (u v w : Int) :
    DynamicDirectedGraph :=
  match g.addEdge u v w with
  | some gp => gp.1
  | none => g

/-- Thread one `ASK` through the engine, as the harness's query loop does. -/
def stepAsk (e : LexiSSSP) (t : Int) : LexiSSSP :=
  match e.ask t with
  | some r => r.1
  | none => e

/-- Thread one `ADD` through the engine. -/
def stepAdd (e : LexiSSSP) (u v w : Int) : LexiSSSP :=
  match e.addEdgeCmd u v w with
  | some e' => e'
  | none => e

/-- The sample-1 graph of the spec and of `runLexiPathTests`:
edges `(1→2,3), (1→3,5), (2→4,4), (3→4,4), (4→5,6)`, capacity 5. -/
def gSample1 : DynamicDirectedGraph :=
  (((((mkGraph 5).addE 1 2 3).addE 1 3 5).addE 2 4 4).addE 3 4 4).addE 4 5 6

/-- Engine over the sample-1 graph with source 1, touched as the harness does. -/
def eSample1 : LexiSSSP := (mkLexiSSSP gSample1 1).touch

/-- Sample-1 state after `ASK 5; ADD 1 5 100`. -/
def eSample1b : LexiSSSP := stepAdd (stepAsk eSample1 5) 1 5 100

/-- Sample-1 state after the further `ASK 5; REM 4 5 6`. -/
def eSample1c : LexiSSSP := (stepAsk eSample1b 5).removeEdgeCmd 4 5 6

/-- Sample-1 state after the further `ASK 5; ADD 3 5 7`. -/
def eSample1d : LexiSSSP := stepAdd (stepAsk eSample1c 5) 3 5 7

/-- Two-edge chain `1→2→3` with weights 2; queried at 3 the answer is
bottleneck 2 (sum 4). -/
def eChain : LexiSSSP :=
  (mkLexiSSSP (((mkGraph 3).addE 1 2 2).addE 2 3 2) 1).touch

/-- `eChain` after its answer at 3 was cached and the shortcut edge
`(1→3, 3)` was added: the new minimal sum is 3 with bottleneck 3. -/
def eChainShortcut : LexiSSSP := stepAdd (stepAsk eChain 3) 1 3 3

/-! ### Reachable engine states -/
def Reach (n S : Int) (cs : List Cmd) (e : LexiSSSP) : Prop :=
  execCmds (mkLexiSSSP (mkGraph n) S) cs = some e


theorem lexLe_refl (a : Int × Int) : lexLe a a := Or.inr ⟨rfl, le_rfl⟩

theorem lexLe_of_lt {a b : Int × Int} (h : lexLt a b) : lexLe a b := by
  rcases h with h | ⟨h1, h2⟩
  · exact Or.inl h
  · exact Or.inr ⟨h1, le_of_lt h2⟩

theorem lexLe_trans {a b c : Int × Int} (h1 : lexLe a b) (h2 : lexLe b c) :
    lexLe a c := by
  rcases h1 with h1 | ⟨e1, l1⟩ <;> rcases h2 with h2 | ⟨e2, l2⟩
  · exact Or.inl (lt_trans h1 h2)
  · exact Or.inl (e2 ▸ h1)
  · exact Or.inl (e1 ▸ h2)
  · exact Or.inr ⟨e1.trans e2, le_trans l1 l2⟩

theorem lexLt_of_le_of_lt {a b c : Int × Int} (h1 : lexLe a b) (h2 : lexLt b c) :
    lexLt a c := by
  rcases h1 with h1 | ⟨e1, l1⟩ <;> rcases h2 with h2 | ⟨e2, l2⟩
  · exact Or.inl (lt_trans h1 h2)
  · exact Or.inl (e2 ▸ h1)
  · exact Or.inl (e1 ▸ h2)
  · exact Or.inr ⟨e1.trans e2, lt_of_le_of_lt l1 l2⟩

theorem lexLt_of_lt_of_le {a b c : Int × Int} (h1 : lexLt a b) (h2 : lexLe b c) :
    lexLt a c := by
  rcases h1 with h1 | ⟨e1, l1⟩ <;> rcases h2 with h2 | ⟨e2, l2⟩
  · exact Or.inl (lt_trans h1 h2)
  · exact Or.inl (e2 ▸ h1)
  · exact Or.inl (e1 ▸ h2)
  · exact Or.inr ⟨e1.trans e2, lt_of_lt_of_le l1 l2⟩

theorem lexLt_irrefl (a : Int × Int) : ¬ lexLt a a := by
  rintro (h | ⟨-, h⟩) <;> exact lt_irrefl _ h

theorem lexLe_total (a b : Int × Int) : lexLe a b ∨ lexLe b a := by
  rcases lt_trichotomy a.1 b.1 with h | h | h
  · exact Or.inl (Or.inl h)
  · rcases le_total a.2 b.2 with h2 | h2
    · exact Or.inl (Or.inr ⟨h, h2⟩)
    · exact Or.inr (Or.inr ⟨h.symm, h2⟩)
  · exact Or.inr (Or.inl h)

theorem not_lexLt_iff {a b : Int × Int} : ¬ lexLt a b ↔ lexLe b a := by
  constructor
  · intro h
    rcases lt_trichotomy b.1 a.1 with h1 | h1 | h1
    · exact Or.inl h1
    · rcases le_or_lt b.2 a.2 with h2 | h2
      · exact Or.inr ⟨h1, h2⟩
      · exact absurd (Or.inr ⟨h1.symm, h2⟩) h
    · exact absurd (Or.inl h1) h
  · intro hle hlt
    exact lexLt_irrefl a (lexLt_of_lt_of_le hlt hle)

theorem lexLe_antisymm {a b : Int × Int} (h1 : lexLe a b) (h2 : lexLe b a) :
    a = b := by
  rcases h1 with h1 | ⟨e1, l1⟩ <;> rcases h2 with h2 | ⟨e2, l2⟩
  · exact absurd (lt_trans h1 h2) (lt_irrefl _)
  · exact absurd (e2 ▸ h1) (lt_irrefl _)
  · exact absurd (e1 ▸ h2) (lt_irrefl _)
  · exact Prod.ext e1 (le_antisymm l1 l2)

theorem extLab_mono {a b : Int × Int} (w : Int) (h : lexLe a b) :
    lexLe (extLab a w) (extLab b w) := by
  rcases h with h | ⟨e1, l1⟩
  · exact Or.inl (by simpa [extLab] using h)
  · exact Or.inr ⟨by simp [extLab, e1], max_le_max l1 le_rfl⟩

theorem lexLe_extLab_self (a : Int × Int) {w : Int} (hw : 0 ≤ w) :
    lexLe a (extLab a w) := by
  rcases lt_or_eq_of_le hw with h | h
  · exact Or.inl (by show a.1 < a.1 + w; omega)
  · exact Or.inr ⟨by show a.1 = a.1 + w; omega, le_max_left _ _⟩

theorem accepts_iff_lexLt {dv bv nd nb : Int} :
    accepts dv bv nd nb ↔ lexLt (nd, nb) (dv, bv) := Iff.rfl

theorem intmax_nonneg : (0 : Int) ≤ INTMAX := by decide

theorem inf_pos : (0 : Int) < INF := by decide

/-- A label below the unreached label is also below any relaxation of the
unreached label (the stability condition holds vacuously for edges leaving
an unreached node). -/
theorem stable_of_init {x : Int × Int} (hx : lexLe x initLab) {w : Int}
    (hw : 0 ≤ w) : lexLe x (extLab initLab w) := by
  have hx1 : x.1 < INF ∨ (x.1 = INF ∧ x.2 ≤ INTMAX) := hx
  rcases hx1 with h | ⟨h1, h2⟩
  · exact Or.inl (show x.1 < INF + w by omega)
  · rcases lt_or_eq_of_le hw with hw' | hw'
    · exact Or.inl (show x.1 < INF + w by omega)
    · exact Or.inr ⟨show x.1 = INF + w by omega,
        le_trans h2 (le_max_left _ _)⟩

theorem pathSum_nil (g : DynamicDirectedGraph) : pathSum g [] = 0 := rfl

theorem pathMax_nil (g : DynamicDirectedGraph) : pathMax g [] = 0 := rfl

theorem pathKey_nil (g : DynamicDirectedGraph) : pathKey g [] = (0, 0) := rfl

theorem pathSum_append (g : DynamicDirectedGraph) (p q : List Nat) :
    pathSum g (p ++ q) = pathSum g p + pathSum g q := by
  simp [pathSum]

theorem pathMax_nonneg (g : DynamicDirectedGraph) (p : List Nat) :
    0 ≤ pathMax g p := by
  induction p with
  | nil => exact le_rfl
  | cons a l ih =>
    show 0 ≤ max (pathWt g a) (pathMax g l)
    exact le_trans ih (le_max_right _ _)

theorem pathMax_append (g : DynamicDirectedGraph) (p q : List Nat) :
    pathMax g (p ++ q) = max (pathMax g p) (pathMax g q) := by
  induction p with
  | nil =>
    show pathMax g q = max (pathMax g []) (pathMax g q)
    rw [pathMax_nil, max_eq_right (pathMax_nonneg g q)]
  | cons a l ih =>
    show max (pathWt g a) (pathMax g (l ++ q)) = max (max (pathWt g a) (pathMax g l)) (pathMax g q)
    rw [ih, max_assoc]

theorem pathWt_eq {g : DynamicDirectedGraph} {id : Nat} {e : Edge}
    (he : g.edges.get? id = some e) : pathWt g id = e.w := by
  unfold pathWt; rw [he]; rfl

theorem pathKey_snoc {g : DynamicDirectedGraph} {id : Nat} {e : Edge}
    (he : g.edges.get? id = some e) (hw : 0 ≤ e.w) (p : List Nat) :
    pathKey g (p ++ [id]) = extLab (pathKey g p) e.w := by
  unfold pathKey extLab
  rw [pathSum_append, pathMax_append]
  have h1 : pathSum g [id] = e.w := by
    show pathWt g id + 0 = e.w
    rw [pathWt_eq he]; omega
  have h2 : pathMax g [id] = e.w := by
    show max (pathWt g id) 0 = e.w
    rw [pathWt_eq he, max_eq_left hw]
  rw [h1, h2]

theorem isPath_snoc {g : DynamicDirectedGraph} {s u : Int} {p : List Nat}
    (hp : IsPath g s u p) {id : Nat} {e : Edge}
    (he : g.edges.get? id = some e) (ha : e.alive = true) (hu : e.u = u) :
    IsPath g s e.v (p ++ [id]) := by
  induction hp with
  | nil s => exact IsPath.cons he ha hu (IsPath.nil e.v)
  | cons he' ha' hu' _ ih => exact IsPath.cons he' ha' hu' (ih hu)

theorem isPath_back_elim {g : DynamicDirectedGraph} {s t : Int} {p : List Nat}
    (hp : IsPath g s t p) :
    (p = [] ∧ s = t) ∨
    ∃ q id e, p = q ++ [id] ∧ g.edges.get? id = some e ∧ e.alive = true ∧
      e.v = t ∧ IsPath g s e.u q := by
  induction hp with
  | nil s => exact Or.inl ⟨rfl, rfl⟩
  | cons he ha hu htail ih =>
    rcases ih with ⟨rfl, hvt⟩ | ⟨q, jd, f, rfl, hf, hfa, hfv, hq⟩
    · exact Or.inr ⟨[], _, _, (List.nil_append _).symm, he, ha, hvt,
        hu ▸ IsPath.nil _⟩
    · exact Or.inr ⟨_ :: q, jd, f, rfl, hf, hfa, hfv,
        IsPath.cons he ha hu hq⟩

theorem isPath_target_lt {g : DynamicDirectedGraph} (HE : EdgesInv g)
    {s t : Int} {p : List Nat} (hp : IsPath g s t p) :
    (p = [] ∧ s = t) ∨ (0 ≤ t ∧ t.toNat < g.adj.length) := by
  rcases isPath_back_elim hp with h | ⟨q, id, e, -, he, -, hv, -⟩
  · exact Or.inl h
  · obtain ⟨-, -, h1, h2, -⟩ := HE id e he
    exact Or.inr ⟨hv ▸ h1, hv ▸ h2⟩

/-- Lower bound via stability: if the source label is at most `(0, 0)` and
every alive edge is relaxed (stable), every node label is a lower bound for
every path key. -/
theorem label_le_pathKey {g : DynamicDirectedGraph} {S : Int}
    (HE : EdgesInv g) {dist bm : List Int}
    (hS : lexLe (labD dist bm S.toNat) (0, 0))
    (hstab : ∀ id e, g.edges.get? id = some e → e.alive = true →
      lexLe (labD dist bm e.v.toNat) (extLab (labD dist bm e.u.toNat) e.w)) :
    ∀ p t, IsPath g S t p → lexLe (labD dist bm t.toNat) (pathKey g p) := by
  have main : ∀ n p t, p.length = n → IsPath g S t p →
      lexLe (labD dist bm t.toNat) (pathKey g p) := by
    intro n
    induction n using Nat.strong_induction_on with
    | _ n ih =>
      intro p t hlen hp
      rcases isPath_back_elim hp with ⟨rfl, rfl⟩ | ⟨q, id, e, rfl, he, ha, hv, hq⟩
      · rw [pathKey_nil]; exact hS
      · have hwb := HE id e he
        have hqlen : q.length < n := by
          rw [← hlen]; simp
        have hqle := ih q.length hqlen q e.u rfl hq
        have hstep := hstab id e he ha
        subst hv
        refine lexLe_trans hstep ?_
        rw [pathKey_snoc he hwb.2.2.2.2 q]
        exact extLab_mono e.w hqle
  exact fun p t hp => main p.length p t rfl hp

theorem mem_pqInsert {x y : PQItem} {l : List PQItem} :
    y ∈ pqInsert x l ↔ y = x ∨ y ∈ l := by
  induction l with
  | nil => simp [pqInsert]
  | cons z zs ih =>
    unfold pqInsert
    split
    · rw [List.mem_cons, ih, List.mem_cons]
      tauto
    · simp only [List.mem_cons]

theorem length_pqInsert (x : PQItem) (l : List PQItem) :
    (pqInsert x l).length = l.length + 1 := by
  induction l with
  | nil => rfl
  | cons z zs ih =>
    unfold pqInsert
    split
    · simp [ih]
    · simp

theorem pairwise_pqInsert {x : PQItem} {l : List PQItem}
    (hl : l.Pairwise fun a b => lexLe (pqKey a) (pqKey b)) :
    (pqInsert x l).Pairwise fun a b => lexLe (pqKey a) (pqKey b) := by
  induction l with
  | nil => simp [pqInsert]
  | cons z zs ih =>
    have hz := List.pairwise_cons.mp hl
    unfold pqInsert
    split
    case isTrue h =>
      refine List.pairwise_cons.mpr ⟨?_, ih hz.2⟩
      intro y hy
      rcases mem_pqInsert.mp hy with rfl | hy2
      · exact h
      · exact hz.1 y hy2
    case isFalse h =>
      have hxz : lexLe (pqKey x) (pqKey z) := by
        rcases lexLe_total (pqKey x) (pqKey z) with hh | hh
        · exact hh
        · exact absurd hh h
      refine List.pairwise_cons.mpr ⟨?_, hl⟩
      intro y hy
      rcases List.mem_cons.mp hy with rfl | hy2
      · exact hxz
      · exact lexLe_trans hxz (hz.1 y hy2)

theorem getD_irrel {l : List Int} {n : Nat} (h : n < l.length) (a b : Int) :
    l.getD n a = l.getD n b := by
  rw [List.getD_eq_getElem?_getD, List.getD_eq_getElem?_getD,
    List.getElem?_eq_getElem h]
  rfl

theorem labD_set_self {dist bm : List Int} {n : Nat} (h1 : n < dist.length)
    (h2 : n < bm.length) (a b : Int) :
    labD (dist.set n a) (bm.set n b) n = (a, b) := by
  unfold labD
  rw [List.getD_eq_getElem?_getD, List.getD_eq_getElem?_getD,
    List.getElem?_set_self h1, List.getElem?_set_self h2]
  rfl

theorem labD_set_ne {dist bm : List Int} {n m : Nat} (h : n ≠ m) (a b : Int) :
    labD (dist.set n a) (bm.set n b) m = labD dist bm m := by
  unfold labD
  rw [List.getD_eq_getElem?_getD, List.getD_eq_getElem?_getD,
    List.getElem?_set_ne h, List.getElem?_set_ne h,
    ← List.getD_eq_getElem?_getD, ← List.getD_eq_getElem?_getD]

theorem labD_fst {dist bm : List Int} {n : Nat} :
    (labD dist bm n).1 = dist.getD n INF := rfl

theorem openPred_true_iff {g : DynamicDirectedGraph} {B : Int × Int}
    {dist bm : List Int} {id : Nat} :
    openPred g B dist bm id = true ↔
      ∃ e, g.edges.get? id = some e ∧ e.alive = true ∧
        ¬(lexLe (labD dist bm e.u.toNat) B ∧
          lexLe (labD dist bm e.v.toNat)
            (extLab (labD dist bm e.u.toNat) e.w)) := by
  unfold openPred
  cases he : g.edges.get? id with
  | none => simp
  | some e =>
    simp only [Bool.and_eq_true, Bool.not_eq_true', Bool.and_eq_false_iff,
      decide_eq_false_iff_not, Option.some.injEq]
    constructor
    · rintro ⟨ha, hopen⟩
      refine ⟨e, rfl, ha, ?_⟩
      rintro ⟨h1, h2⟩
      rcases hopen with h | h <;> exact h (by assumption)
    · rintro ⟨f, hf, ha, hopen⟩
      cases hf
      refine ⟨ha, ?_⟩
      by_cases h1 : lexLe (labD dist bm e.u.toNat) B
      · exact Or.inr fun h2 => hopen ⟨h1, h2⟩
      · exact Or.inl h1

theorem openPred_false_of_closed {g : DynamicDirectedGraph} {B : Int × Int}
    {dist bm : List Int} {id : Nat} {e : Edge}
    (he : g.edges.get? id = some e)
    (hfr : lexLe (labD dist bm e.u.toNat) B)
    (hst : lexLe (labD dist bm e.v.toNat)
      (extLab (labD dist bm e.u.toNat) e.w)) :
    openPred g B dist bm id = false := by
  cases hop : openPred g B dist bm id with
  | false => rfl
  | true =>
    obtain ⟨f, hf, -, hopen⟩ := openPred_true_iff.mp hop
    rw [he] at hf
    cases Option.some.inj hf
    exact absurd ⟨hfr, hst⟩ hopen

theorem closed_step {g : DynamicDirectedGraph} {B : Int × Int}
    {dist bm : List Int} {v0 : Nat} {nd nb : Int}
    (hlen1 : v0 < dist.length) (hlen2 : v0 < bm.length)
    (hBc : lexLe B (nd, nb)) (hacc : lexLt (nd, nb) (labD dist bm v0))
    {id : Nat} (hcl : openPred g B dist bm id = false) :
    openPred g B (dist.set v0 nd) (bm.set v0 nb) id = false := by
  cases hop : openPred g B (dist.set v0 nd) (bm.set v0 nb) id with
  | false => rfl
  | true =>
    exfalso
    obtain ⟨e, he, ha, hopen⟩ := openPred_true_iff.mp hop
    have hcl2 := hcl
    rw [show (false : Bool) = openPred g B dist bm id from hcl.symm] at hcl2
    have hnotopen : ¬ openPred g B dist bm id = true := by rw [hcl]; simp
    have hold : lexLe (labD dist bm e.u.toNat) B ∧
        lexLe (labD dist bm e.v.toNat)
          (extLab (labD dist bm e.u.toNat) e.w) := by
      by_contra hcon
      exact hnotopen (openPred_true_iff.mpr ⟨e, he, ha, hcon⟩)
    have huv : e.u.toNat ≠ v0 := by
      intro hh
      rw [hh] at hold
      exact lexLt_irrefl _
        (lexLt_of_lt_of_le hacc (lexLe_trans hold.1 hBc))
    have hu' : labD (dist.set v0 nd) (bm.set v0 nb) e.u.toNat =
        labD dist bm e.u.toNat := labD_set_ne (fun hh => huv hh.symm) _ _
    refine hopen ⟨hu' ▸ hold.1, ?_⟩
    rw [hu']
    by_cases hv : e.v.toNat = v0
    · rw [hv, labD_set_self hlen1 hlen2]
      exact lexLe_trans (lexLe_of_lt (hv ▸ hacc)) hold.2
    · rw [labD_set_ne (fun hh => hv hh.symm)]
      exact hold.2

theorem labels_decrease_step {dist bm : List Int} {v0 : Nat} {nd nb : Int}
    (hlen1 : v0 < dist.length) (hlen2 : v0 < bm.length)
    (hacc : lexLt (nd, nb) (labD dist bm v0)) (n : Nat) :
    lexLe (labD (dist.set v0 nd) (bm.set v0 nb) n) (labD dist bm n) := by
  by_cases hn : n = v0
  · subst hn
    rw [labD_set_self hlen1 hlen2]
    exact lexLe_of_lt hacc
  · rw [labD_set_ne (fun hh => hn hh.symm)]
    exact lexLe_refl _

/-- C3: on the concrete sample graph with source 1, `ask 5` answers 6; after
`addEdgeCmd 1 5 100` it still answers 6; after `removeEdgeCmd 4 5 6` it
answers 100; after `addEdgeCmd 3 5 7` it answers 7 and `ask 4` answers 4. -/
theorem lexi_sample1_scenario :
    askVal eSample1 5 = some 6 ∧
    askVal eSample1b 5 = some 6 ∧
    askVal eSample1c 5 = some 100 ∧
    askVal eSample1d 5 = some 7 ∧
    askVal (stepAsk eSample1d 5) 4 = some 4 := by
  refine ⟨?_, ?_, ?_, ?_, ?_⟩ <;> decide

/-- C2 counterexample: adding the edge `(1→3, 3)` to the chain `1→2→3`
(weights 2) strictly increases the bottleneck reported for node 3 from 2 to
3, because the new path has the smaller sum 3 < 4 but the larger maximum
edge weight — so "adding an edge never increases the reported bottleneck"
fails on the code. -/
theorem addEdge_can_increase_reported_bottleneck :
    askVal eChain 3 = some 2 ∧ askVal eChainShortcut 3 = some 3 ∧
    ¬ ((3 : Int) ≤ 2) := by
  refine ⟨by decide, by decide, by decide⟩

namespace DynamicDirectedGraph

theorem ensureNode_edges (g : DynamicDirectedGraph) (x : Int) :
    (g.ensureNode x).edges = g.edges := by
  unfold ensureNode; split <;> [rfl; skip]; split <;> rfl

theorem ensureNode_bucket (g : DynamicDirectedGraph) (x : Int) :
    (g.ensureNode x).bucket = g.bucket := by
  unfold ensureNode; split <;> [rfl; skip]; split <;> rfl

theorem length_le_ensureNode_adj (g : DynamicDirectedGraph) (x : Int) :
    g.adj.length ≤ (g.ensureNode x).adj.length := by
  unfold ensureNode; split
  · exact le_rfl
  split
  · simp
  · exact le_rfl

theorem ensureNode_covers (g : DynamicDirectedGraph) {x : Int} (hx : 0 ≤ x) :
    x.toNat + 1 ≤ (g.ensureNode x).adj.length := by
  unfold ensureNode
  rw [if_neg (by omega)]
  split
  · simp; omega
  · omega

theorem ensureNode_eq_self (g : DynamicDirectedGraph) {x : Int}
    (h : x < 0 ∨ x.toNat + 1 ≤ g.adj.length) : g.ensureNode x = g := by
  unfold ensureNode
  rcases h with h | h
  · rw [if_pos h]
  · split
    · rfl
    · rw [if_neg (by omega)]

theorem ensureNode_getD_adj (g : DynamicDirectedGraph) (x : Int) (n : Nat) :
    ((g.ensureNode x).adj.getD n []) = g.adj.getD n [] := by
  unfold ensureNode
  split
  · rfl
  split
  · rcases Nat.lt_or_ge n g.adj.length with h | h
    · simp [List.getD_eq_getElem?_getD, List.getElem?_append_left h]
    · simp [List.getD_eq_getElem?_getD, List.getElem?_append_right h,
        List.getElem?_eq_none h, List.getElem?_replicate]
      split <;> rfl
  · rfl

end DynamicDirectedGraph

theorem resizeL_length (l : List Int) (n : Nat) (v : Int) :
    (resizeL l n v).length = max n l.length - (l.length - n) := by
  simp [resizeL]
  omega

theorem resizeL_length_of_le (l : List Int) {n : Nat} (h : l.length ≤ n)
    (v : Int) : (resizeL l n v).length = n := by
  rw [resizeL_length]; omega

namespace LexiSSSP

theorem growToInclude_def (e : LexiSSSP) (x : Int) :
    e.growToInclude x =
      if x < 0 then e
      else if e.dist.length < x.toNat + 1 then
        { e with
          g := e.g.ensureNode x,
          dist := resizeL e.dist (x.toNat + 1) INF,
          bestMax := resizeL e.bestMax (x.toNat + 1) INTMAX }
      else { e with g := e.g.ensureNode x } := rfl

theorem growToInclude_S (e : LexiSSSP) (x : Int) :
    (e.growToInclude x).S = e.S := by
  rw [growToInclude_def]; split <;> [rfl; skip]; split <;> rfl

theorem growToInclude_dirty (e : LexiSSSP) (x : Int) :
    (e.growToInclude x).dirty = e.dirty := by
  rw [growToInclude_def]; split <;> [rfl; skip]; split <;> rfl

theorem growToInclude_edges (e : LexiSSSP) (x : Int) :
    (e.growToInclude x).g.edges = e.g.edges := by
  rw [growToInclude_def]
  split <;> [rfl; skip]; split <;> simp [DynamicDirectedGraph.ensureNode_edges]

theorem growToInclude_bucket (e : LexiSSSP) (x : Int) :
    (e.growToInclude x).g.bucket = e.g.bucket := by
  rw [growToInclude_def]
  split <;> [rfl; skip]; split <;> simp [DynamicDirectedGraph.ensureNode_bucket]

theorem length_le_growToInclude_dist (e : LexiSSSP) (x : Int) :
    e.dist.length ≤ (e.growToInclude x).dist.length := by
  rw [growToInclude_def]
  split
  · exact le_rfl
  split
  · show e.dist.length ≤ (resizeL e.dist (x.toNat + 1) INF).length
    rw [resizeL_length]; omega
  · exact le_rfl

theorem length_le_growToInclude_adj (e : LexiSSSP) (x : Int) :
    e.g.adj.length ≤ (e.growToInclude x).g.adj.length := by
  rw [growToInclude_def]
  split
  · exact le_rfl
  split <;> exact DynamicDirectedGraph.length_le_ensureNode_adj _ _

theorem growToInclude_dist_covers (e : LexiSSSP) {x : Int} (hx : 0 ≤ x) :
    x.toNat + 1 ≤ (e.growToInclude x).dist.length := by
  rw [growToInclude_def, if_neg (by omega)]
  split
  · show x.toNat + 1 ≤ (resizeL e.dist (x.toNat + 1) INF).length
    rw [resizeL_length]; omega
  · show x.toNat + 1 ≤ e.dist.length
    omega

theorem growToInclude_adj_covers (e : LexiSSSP) {x : Int} (hx : 0 ≤ x) :
    x.toNat + 1 ≤ (e.growToInclude x).g.adj.length := by
  rw [growToInclude_def, if_neg (by omega)]
  split <;> exact DynamicDirectedGraph.ensureNode_covers _ hx

theorem growToInclude_eq_self (e : LexiSSSP) {x : Int}
    (hdist : x < 0 ∨ (x.toNat + 1 ≤ e.dist.length ∧ x.toNat + 1 ≤ e.g.adj.length)) :
    e.growToInclude x = e := by
  rw [growToInclude_def]
  rcases hdist with h | ⟨h1, h2⟩
  · rw [if_pos h]
  · by_cases hx : x < 0
    · rw [if_pos hx]
    · rw [if_neg hx, if_neg (by omega),
        DynamicDirectedGraph.ensureNode_eq_self _ (Or.inr h2)]

theorem refillLabels_S (e : LexiSSSP) : e.refillLabels.S = e.S := rfl

theorem refillLabels_g (e : LexiSSSP) : e.refillLabels.g = e.g := rfl

theorem refillLabels_dirty (e : LexiSSSP) : e.refillLabels.dirty = e.dirty := rfl

theorem recompute_struct {e e' : LexiSSSP} (h : e.recompute = some e') :
    e'.dirty = false ∧ e'.S = e.S ∧ 0 ≤ e.S ∧
    e.g.adj.length ≤ e'.g.adj.length := by
  unfold recompute at h
  split at h
  case isTrue hS =>
    rcases Option.map_eq_some'.mp h with ⟨r, _, rfl⟩
    refine ⟨rfl, ?_, hS, ?_⟩
    · show ((_ : LexiSSSP).growToInclude e.S).S = e.S
      rw [growToInclude_S, refillLabels_S, growToInclude_S]
    · show e.g.adj.length ≤ ((_ : LexiSSSP).growToInclude e.S).g.adj.length
      refine le_trans ?_ (length_le_growToInclude_adj _ _)
      rw [refillLabels_g]
      exact length_le_growToInclude_adj _ _
  case isFalse => exact absurd h (by simp)

theorem recompute_adj_covers {e e' : LexiSSSP} (h : e.recompute = some e')
    {x : Int} (hc : x.toNat + 1 ≤ e.g.adj.length) :
    x.toNat + 1 ≤ e'.g.adj.length := by
  exact le_trans hc (recompute_struct h).2.2.2

theorem ask_def (e : LexiSSSP) (t : Int) :
    e.ask t =
      ((if (e.growToInclude t).dirty then (e.growToInclude t).recompute
        else some (e.growToInclude t)).bind fun e2 =>
        if 0 ≤ t ∧ t.toNat < e2.dist.length then
          some (e2, if e2.dist.getD t.toNat 0 = INF then -1
                    else e2.bestMax.getD t.toNat 0)
        else none) := rfl

theorem ask_cases {e e' : LexiSSSP} {t r : Int} (h : e.ask t = some (e', r)) :
    0 ≤ t ∧ t.toNat < e'.dist.length ∧
    r = (if e'.dist.getD t.toNat 0 = INF then -1
         else e'.bestMax.getD t.toNat 0) ∧
    ((e.growToInclude t).dirty = true ∧ (e.growToInclude t).recompute = some e' ∨
     (e.growToInclude t).dirty = false ∧ e' = e.growToInclude t) := by
  rw [ask_def] at h
  by_cases hd : (e.growToInclude t).dirty
  · rw [if_pos hd] at h
    cases hrec : (e.growToInclude t).recompute with
    | none => rw [hrec] at h; exact absurd h (by simp)
    | some e2 =>
      rw [hrec, Option.some_bind] at h
      by_cases hg : 0 ≤ t ∧ t.toNat < e2.dist.length
      · rw [if_pos hg] at h
        have he := Option.some.inj h
        have he2 : e2 = e' := congrArg Prod.fst he
        have hrv : _ = r := congrArg Prod.snd he
        subst he2
        exact ⟨hg.1, hg.2, hrv.symm, Or.inl ⟨hd, rfl⟩⟩
      · rw [if_neg hg] at h; exact absurd h (by simp)
  · rw [if_neg hd, Option.some_bind] at h
    by_cases hg : 0 ≤ t ∧ t.toNat < (e.growToInclude t).dist.length
    · rw [if_pos hg] at h
      have he := Option.some.inj h
      have he2 : e.growToInclude t = e' := congrArg Prod.fst he
      have hrv : _ = r := congrArg Prod.snd he
      refine ⟨hg.1, he2 ▸ hg.2, ?_, Or.inr ⟨by simpa using hd, he2.symm⟩⟩
      rw [← hrv, he2]
    · rw [if_neg hg] at h; exact absurd h (by simp)

end LexiSSSP

/-- C8: `ask` is idempotent on the engine state — a successful query leaves
the engine in a state (`dirty` cleared) from which the same query returns the
same answer and the same state, with no label changed; so repeated queries
with no intervening mutation all report one value, only the first recomputes. -/
theorem ask_idempotent {e e' : LexiSSSP} {t r : Int}
    (h : e.ask t = some (e', r)) :
    e'.dirty = false ∧ e'.ask t = some (e', r) := by
  obtain ⟨ht, hlen, hr, hcases⟩ := LexiSSSP.ask_cases h
  have hdirty : e'.dirty = false := by
    rcases hcases with ⟨-, hrec⟩ | ⟨hd, he'⟩
    · exact (LexiSSSP.recompute_struct hrec).1
    · rw [he']; exact hd
  have hadj : t.toNat + 1 ≤ e'.g.adj.length := by
    rcases hcases with ⟨-, hrec⟩ | ⟨-, he'⟩
    · exact LexiSSSP.recompute_adj_covers hrec
        (LexiSSSP.growToInclude_adj_covers e ht)
    · rw [he']; exact LexiSSSP.growToInclude_adj_covers e ht
  have hfix : e'.growToInclude t = e' :=
    LexiSSSP.growToInclude_eq_self _ (Or.inr ⟨by omega, hadj⟩)
  refine ⟨hdirty, ?_⟩
  rw [LexiSSSP.ask_def, hfix, hdirty, if_neg (by simp), Option.some_bind,
    if_pos ⟨ht, hlen⟩, hr]

/-- Closed witness for `ask_idempotent`: the first query on the sample engine
succeeds and, applied to it, `ask_idempotent` yields the repeat answer. -/
theorem ask_idempotent_witness :
    (stepAsk eSample1 5).dirty = false ∧
    (stepAsk eSample1 5).ask 5 = some (stepAsk eSample1 5, 6) := by
  have h : eSample1.ask 5 = some (stepAsk eSample1 5, 6) := rfl
  exact ask_idempotent h

theorem bucketPred_iff {g : DynamicDirectedGraph} {k : Int × Int × Int} {i : Nat} :
    bucketPred g k i = true ↔
      ∃ e, g.edges.get? i = some e ∧ e.alive = true ∧ (e.u, e.v, e.w) = k := by
  unfold bucketPred
  cases h : g.edges.get? i with
  | none => simp
  | some e =>
    simp only [Bool.and_eq_true, decide_eq_true_eq]
    constructor
    · exact fun hh => ⟨e, rfl, hh.1, hh.2⟩
    · rintro ⟨f, hf, ha, hk⟩
      cases Option.some.inj hf
      exact ⟨ha, hk⟩

theorem mem_bucketSpec {g : DynamicDirectedGraph} {k : Int × Int × Int} {i : Nat} :
    i ∈ bucketSpec g k ↔
      ∃ e, g.edges.get? i = some e ∧ e.alive = true ∧ (e.u, e.v, e.w) = k := by
  unfold bucketSpec
  rw [List.mem_filter, bucketPred_iff]
  constructor
  · exact fun h => h.2
  · rintro ⟨e, he, ha, hk⟩
    refine ⟨List.mem_range.mpr ?_, e, he, ha, hk⟩
    exact (List.get?_eq_some.mp he).1

theorem bucketSpec_pairwise (g : DynamicDirectedGraph) (k : Int × Int × Int) :
    (bucketSpec g k).Pairwise (· < ·) :=
  List.Pairwise.sublist (List.filter_sublist _) (List.pairwise_lt_range _)

theorem pairwise_lt_le_getLast {l : List Nat} (hp : l.Pairwise (· < ·))
    {a x : Nat} (hl : l.getLast? = some a) (hx : x ∈ l) : x ≤ a := by
  induction l with
  | nil => cases hx
  | cons y ys ih =>
    cases ys with
    | nil =>
      simp at hl hx; omega
    | cons z zs =>
      rw [List.getLast?_cons_cons] at hl
      rcases List.mem_cons.mp hx with rfl | hx2
      · have hmem : a ∈ z :: zs := List.mem_of_mem_getLast? hl
        exact le_of_lt ((List.pairwise_cons.mp hp).1 a hmem)
      · exact ih (List.pairwise_cons.mp hp).2 hl hx2

theorem pairwise_dropLast_eq_filter {l : List Nat} (hp : l.Pairwise (· < ·))
    {a : Nat} (hl : l.getLast? = some a) :
    l.dropLast = l.filter (fun x => decide (x ≠ a)) := by
  induction l with
  | nil => cases hl
  | cons y ys ih =>
    cases ys with
    | nil =>
      simp at hl
      subst hl
      simp
    | cons z zs =>
      rw [List.getLast?_cons_cons] at hl
      have hy : y ≠ a := by
        have hmem : a ∈ z :: zs := List.mem_of_mem_getLast? hl
        exact Nat.ne_of_lt ((List.pairwise_cons.mp hp).1 a hmem)
      rw [List.dropLast_cons₂, List.filter_cons_of_pos (by simpa using hy),
        ih (List.pairwise_cons.mp hp).2 hl]

theorem bucketSpec_eq_of_edges {g g' : DynamicDirectedGraph}
    (h : g'.edges = g.edges) (k : Int × Int × Int) :
    bucketSpec g' k = bucketSpec g k := by
  unfold bucketSpec bucketPred
  rw [h]

theorem bucketInv_mkGraph (n : Int) : BucketInv (mkGraph n) :=
  fun _ => rfl

theorem bucketInv_ensureNode {g : DynamicDirectedGraph} (x : Int)
    (hinv : BucketInv g) : BucketInv (g.ensureNode x) := by
  intro k
  rw [DynamicDirectedGraph.ensureNode_bucket, hinv k,
    bucketSpec_eq_of_edges (DynamicDirectedGraph.ensureNode_edges g x) k]

theorem bucketPred_append_lt {g g' : DynamicDirectedGraph} {en : Edge}
    (h : g'.edges = g.edges ++ [en]) {k : Int × Int × Int} {i : Nat}
    (hi : i < g.edges.length) : bucketPred g' k i = bucketPred g k i := by
  unfold bucketPred
  rw [h, List.get?_append hi]

theorem bucketPred_append_last {g g' : DynamicDirectedGraph} {en : Edge}
    (h : g'.edges = g.edges ++ [en]) {k : Int × Int × Int} :
    bucketPred g' k g.edges.length =
      (en.alive && decide ((en.u, en.v, en.w) = k)) := by
  unfold bucketPred
  rw [h, List.get?_concat_length]

theorem bucketSpec_append_one {g g' : DynamicDirectedGraph} {en : Edge}
    (h : g'.edges = g.edges ++ [en]) (k : Int × Int × Int) :
    bucketSpec g' k =
      bucketSpec g k ++
        (if en.alive && decide ((en.u, en.v, en.w) = k) then
          [g.edges.length] else []) := by
  unfold bucketSpec
  rw [show g'.edges.length = g.edges.length + 1 by rw [h]; simp,
    List.range_succ, List.filter_append]
  congr 1
  · exact List.filter_congr fun i hi =>
      bucketPred_append_lt h (List.mem_range.mp hi)
  · rw [List.filter_singleton, bucketPred_append_last h]
    cases en.alive && decide ((en.u, en.v, en.w) = k) <;> rfl

theorem addEdge_def (g : DynamicDirectedGraph) (u v w : Int) :
    g.addEdge u v w =
      if u < 0 then none
      else
        some ({ edges := ((g.ensureNode u).ensureNode v).edges ++ [⟨u, v, w, true⟩],
                adj := ((g.ensureNode u).ensureNode v).adj.set u.toNat
                  (((g.ensureNode u).ensureNode v).adj.getD u.toNat [] ++
                    [((g.ensureNode u).ensureNode v).edges.length]),
                bucket := fun k =>
                  if k = (u, v, w) then
                    ((g.ensureNode u).ensureNode v).bucket k ++
                      [((g.ensureNode u).ensureNode v).edges.length]
                  else ((g.ensureNode u).ensureNode v).bucket k },
              ((g.ensureNode u).ensureNode v).edges.length) := rfl

theorem addEdge_elim {g g' : DynamicDirectedGraph} {u v w : Int} {id : Nat}
    (h : g.addEdge u v w = some (g', id)) :
    0 ≤ u ∧ id = g.edges.length ∧
    g'.edges = g.edges ++ [⟨u, v, w, true⟩] ∧
    g'.adj = ((g.ensureNode u).ensureNode v).adj.set u.toNat
      (((g.ensureNode u).ensureNode v).adj.getD u.toNat [] ++ [g.edges.length]) ∧
    g'.bucket = fun k =>
      if k = (u, v, w) then g.bucket k ++ [g.edges.length] else g.bucket k := by
  rw [addEdge_def] at h
  split at h
  · exact absurd h (by simp)
  case isFalse hu =>
    have he := Option.some.inj h
    have hg : _ = g' := congrArg Prod.fst he
    have hid : _ = id := congrArg Prod.snd he
    have hedges : ((g.ensureNode u).ensureNode v).edges = g.edges := by
      rw [DynamicDirectedGraph.ensureNode_edges, DynamicDirectedGraph.ensureNode_edges]
    have hbucket : ((g.ensureNode u).ensureNode v).bucket = g.bucket := by
      rw [DynamicDirectedGraph.ensureNode_bucket, DynamicDirectedGraph.ensureNode_bucket]
    refine ⟨by omega, ?_, ?_, ?_, ?_⟩
    · rw [← hid, hedges]
    · rw [← hg]
      show ((g.ensureNode u).ensureNode v).edges ++ _ = _
      rw [hedges]
    · rw [← hg]
      show ((g.ensureNode u).ensureNode v).adj.set _ _ = _
      rw [hedges]
    · rw [← hg]
      show (fun k => if k = (u, v, w) then
          ((g.ensureNode u).ensureNode v).bucket k ++
            [((g.ensureNode u).ensureNode v).edges.length]
        else ((g.ensureNode u).ensureNode v).bucket k) = _
      rw [hedges, hbucket]

theorem bucketInv_addEdge {g g' : DynamicDirectedGraph} {u v w : Int} {id : Nat}
    (hinv : BucketInv g) (h : g.addEdge u v w = some (g', id)) :
    BucketInv g' := by
  obtain ⟨-, -, hedges, -, hbucket⟩ := addEdge_elim h
  intro k
  rw [hbucket, bucketSpec_append_one hedges k]
  show (if k = (u, v, w) then g.bucket k ++ [g.edges.length] else g.bucket k) = _
  by_cases hk : k = (u, v, w)
  · rw [if_pos hk, hinv k, if_pos (by simp [hk])]
  · rw [if_neg hk, hinv k, if_neg (by simp [Ne.symm hk]), List.append_nil]

theorem removeEdge_of_no_alive {g : DynamicDirectedGraph} {u v w : Int}
    (hinv : BucketInv g)
    (hno : ∀ id e, g.edges.get? id = some e → e.alive = true →
      (e.u, e.v, e.w) ≠ (u, v, w)) :
    g.removeEdge u v w = (g, false) := by
  have hb : g.bucket (u, v, w) = [] := by
    rw [hinv]
    cases hsp : bucketSpec g (u, v, w) with
    | nil => rfl
    | cons a l =>
      exfalso
      have ha : a ∈ bucketSpec g (u, v, w) := by
        rw [hsp]; exact List.mem_cons_self a l
      obtain ⟨e, he, hal, hk⟩ := mem_bucketSpec.mp ha
      exact hno a e he hal hk
  unfold DynamicDirectedGraph.removeEdge
  rw [hb]
  rfl

theorem removeEdge_elim {g : DynamicDirectedGraph} {u v w : Int} {id : Nat}
    (hlast : (g.bucket (u, v, w)).getLast? = some id) {e : Edge}
    (he : g.edges.get? id = some e) :
    (g.removeEdge u v w).2 = true ∧
    (g.removeEdge u v w).1.edges = g.edges.set id { e with alive := false } ∧
    (g.removeEdge u v w).1.adj = g.adj ∧
    (g.removeEdge u v w).1.bucket = fun k =>
      if k = (u, v, w) then (g.bucket (u, v, w)).dropLast else g.bucket k := by
  unfold DynamicDirectedGraph.removeEdge
  rw [hlast]
  dsimp only
  rw [he]
  exact ⟨rfl, rfl, rfl, rfl⟩

theorem mem_bucket_iff {g : DynamicDirectedGraph} (hinv : BucketInv g)
    {k : Int × Int × Int} {id : Nat} :
    id ∈ g.bucket k ↔
      ∃ e, g.edges.get? id = some e ∧ e.alive = true ∧ (e.u, e.v, e.w) = k := by
  rw [hinv k]; exact mem_bucketSpec

theorem bucketInv_removeEdge {g : DynamicDirectedGraph} (u v w : Int)
    (hinv : BucketInv g) : BucketInv (g.removeEdge u v w).1 := by
  cases hlast : (g.bucket (u, v, w)).getLast? with
  | none =>
    have hnone : g.removeEdge u v w = (g, false) := by
      unfold DynamicDirectedGraph.removeEdge; rw [hlast]
    rw [hnone]; exact hinv
  | some id =>
    have hid : id ∈ bucketSpec g (u, v, w) := by
      rw [← hinv]; exact List.mem_of_mem_getLast? hlast
    obtain ⟨e, he, hal, hk⟩ := mem_bucketSpec.mp hid
    obtain ⟨-, hedges, -, hbucket⟩ := removeEdge_elim hlast he
    have hidlt : id < g.edges.length := (List.get?_eq_some.mp he).1
    have hlen : (g.removeEdge u v w).1.edges.length = g.edges.length := by
      rw [hedges, List.length_set]
    intro k
    have hpred : ∀ i, bucketPred (g.removeEdge u v w).1 k i =
        (bucketPred g k i && decide (i ≠ id)) := by
      intro i
      by_cases hi : i = id
      · subst hi
        unfold bucketPred
        rw [hedges, List.get?_eq_getElem?, List.getElem?_set_self hidlt, he]
        simp
      · unfold bucketPred
        rw [hedges, List.get?_eq_getElem?, List.getElem?_set_ne (Ne.symm hi),
          ← List.get?_eq_getElem?]
        simp [hi]
    have hspec : bucketSpec (g.removeEdge u v w).1 k =
        (bucketSpec g k).filter (fun i => decide (i ≠ id)) := by
      unfold bucketSpec
      rw [hlen, List.filter_filter]
      exact List.filter_congr fun i _ => by rw [hpred i, Bool.and_comm]
    rw [hbucket, hspec]
    show (if k = (u, v, w) then (g.bucket (u, v, w)).dropLast else g.bucket k) = _
    by_cases hkk : k = (u, v, w)
    · rw [if_pos hkk, hkk, hinv (u, v, w)]
      exact pairwise_dropLast_eq_filter (bucketSpec_pairwise g (u, v, w))
        (by rw [← hinv]; exact hlast)
    · rw [if_neg hkk, hinv k]
      refine (List.filter_eq_self.mpr ?_).symm
      intro i hi
      obtain ⟨f, hf, -, hfk⟩ := mem_bucketSpec.mp hi
      simp only [decide_eq_true_eq]
      intro hieq
      subst hieq
      rw [he] at hf
      cases Option.some.inj hf
      exact hkk (hfk ▸ hk ▸ rfl)

theorem removeEdge_snd_iff {g : DynamicDirectedGraph} (u v w : Int)
    (hinv : BucketInv g) :
    (g.removeEdge u v w).2 = true ↔
      ∃ id e, g.edges.get? id = some e ∧ e.alive = true ∧
        (e.u, e.v, e.w) = (u, v, w) := by
  cases hlast : (g.bucket (u, v, w)).getLast? with
  | none =>
    have hnil : g.bucket (u, v, w) = [] := List.getLast?_eq_none_iff.mp hlast
    have hnone : g.removeEdge u v w = (g, false) := by
      unfold DynamicDirectedGraph.removeEdge; rw [hlast]
    rw [hnone]
    simp only [Bool.false_eq_true, false_iff]
    rintro ⟨id, e, he, hal, hk⟩
    have : id ∈ g.bucket (u, v, w) := (mem_bucket_iff hinv).mpr ⟨e, he, hal, hk⟩
    rw [hnil] at this
    cases this
  | some id =>
    have hid : id ∈ bucketSpec g (u, v, w) := by
      rw [← hinv]; exact List.mem_of_mem_getLast? hlast
    obtain ⟨e, he, hal, hk⟩ := mem_bucketSpec.mp hid
    obtain ⟨htrue, -, -, -⟩ := removeEdge_elim hlast he
    rw [htrue]
    simp only [true_iff]
    exact ⟨id, e, he, hal, hk⟩

theorem removeEdgeCmd_def (e : LexiSSSP) (u v w : Int) :
    e.removeEdgeCmd u v w =
      { e with
        g := (e.g.removeEdge u v w).1,
        dirty := if (e.g.removeEdge u v w).2 then true else e.dirty } := rfl

theorem removeEdgeCmd_noop {e : LexiSSSP} {u v w : Int} (hinv : BucketInv e.g)
    (hno : ∀ id ed, e.g.edges.get? id = some ed → ed.alive = true →
      (ed.u, ed.v, ed.w) ≠ (u, v, w)) :
    e.removeEdgeCmd u v w = e := by
  rw [removeEdgeCmd_def, removeEdge_of_no_alive hinv hno]
  rfl

theorem bucketInv_addE {g : DynamicDirectedGraph} (u v w : Int)
    (hinv : BucketInv g) : BucketInv (g.addE u v w) := by
  unfold DynamicDirectedGraph.addE
  cases h : g.addEdge u v w with
  | none => exact hinv
  | some gp =>
    obtain ⟨g', id⟩ := gp
    exact bucketInv_addEdge hinv h

theorem bucketInv_gSample1 : BucketInv gSample1 :=
  bucketInv_addE _ _ _ (bucketInv_addE _ _ _ (bucketInv_addE _ _ _
    (bucketInv_addE _ _ _ (bucketInv_addE _ _ _ (bucketInv_mkGraph 5)))))

theorem no_alive_triple_of_all {g : DynamicDirectedGraph} {k : Int × Int × Int}
    (h : ∀ ed ∈ g.edges, ed.alive = true → (ed.u, ed.v, ed.w) ≠ k) :
    ∀ id ed, g.edges.get? id = some ed → ed.alive = true →
      (ed.u, ed.v, ed.w) ≠ k :=
  fun _ ed hid => h ed (List.get?_mem hid)

/-- C5: removing a `(u, v, w)` triple that has no currently-alive instance
returns `false` and leaves the entire store unchanged; the engine command
then leaves the whole engine unchanged — in particular the dirty flag — so
every subsequent query answers exactly as before the failed removal. -/
theorem removeEdge_missing_noop {e : LexiSSSP} {u v w : Int}
    (hinv : BucketInv e.g)
    (hno : ∀ id ed, e.g.edges.get? id = some ed → ed.alive = true →
      (ed.u, ed.v, ed.w) ≠ (u, v, w)) :
    e.g.removeEdge u v w = (e.g, false) ∧
    e.removeEdgeCmd u v w = e ∧
    ∀ t, askVal (e.removeEdgeCmd u v w) t = askVal e t := by
  have h2 : e.removeEdgeCmd u v w = e := removeEdgeCmd_noop hinv hno
  exact ⟨removeEdge_of_no_alive hinv hno, h2, fun t => by rw [h2]⟩

/-- Closed witness for `removeEdge_missing_noop` on the sample graph and a
triple that was never inserted. -/
theorem removeEdge_missing_noop_witness :
    eSample1.g.removeEdge 9 9 9 = (eSample1.g, false) ∧
    eSample1.removeEdgeCmd 9 9 9 = eSample1 ∧
    askVal (eSample1.removeEdgeCmd 9 9 9) 5 = askVal eSample1 5 := by
  have h := @removeEdge_missing_noop eSample1 9 9 9 bucketInv_gSample1
    (no_alive_triple_of_all (by decide))
  exact ⟨h.1, h.2.1, h.2.2 5⟩

/-- C6: when at least one alive instance of `(u, v, w)` exists, `removeEdge`
returns `true` and marks dead exactly one record: the last-inserted
(largest-id) currently-alive instance of that triple; all other records and
all adjacency sequences are untouched. -/
theorem removeEdge_kills_last_alive {g : DynamicDirectedGraph} {u v w : Int}
    (hinv : BucketInv g)
    (hex : ∃ id ed, g.edges.get? id = some ed ∧ ed.alive = true ∧
      (ed.u, ed.v, ed.w) = (u, v, w)) :
    (g.removeEdge u v w).2 = true ∧
    ∃ id ed, g.edges.get? id = some ed ∧ ed.alive = true ∧
      (ed.u, ed.v, ed.w) = (u, v, w) ∧
      (∀ j f, g.edges.get? j = some f → f.alive = true →
        (f.u, f.v, f.w) = (u, v, w) → j ≤ id) ∧
      (g.removeEdge u v w).1.edges = g.edges.set id { ed with alive := false } ∧
      (g.removeEdge u v w).1.adj = g.adj := by
  cases hlast : (g.bucket (u, v, w)).getLast? with
  | none =>
    exfalso
    obtain ⟨id, ed, he, hal, hk⟩ := hex
    have hmem : id ∈ g.bucket (u, v, w) :=
      (mem_bucket_iff hinv).mpr ⟨ed, he, hal, hk⟩
    rw [List.getLast?_eq_none_iff.mp hlast] at hmem
    cases hmem
  | some id =>
    have hid : id ∈ bucketSpec g (u, v, w) := by
      rw [← hinv]; exact List.mem_of_mem_getLast? hlast
    obtain ⟨e, he, hal, hk⟩ := mem_bucketSpec.mp hid
    obtain ⟨htrue, hedges, hadj, -⟩ := removeEdge_elim hlast he
    refine ⟨htrue, id, e, he, hal, hk, ?_, hedges, hadj⟩
    intro j f hf hfal hfk
    have hj : j ∈ g.bucket (u, v, w) := (mem_bucket_iff hinv).mpr ⟨f, hf, hfal, hfk⟩
    rw [hinv] at hj
    exact pairwise_lt_le_getLast (bucketSpec_pairwise g (u, v, w))
      (by rw [← hinv]; exact hlast) hj

/-- Closed witness for `removeEdge_kills_last_alive` on the sample graph. -/
theorem removeEdge_kills_last_alive_witness :
    (gSample1.removeEdge 4 5 6).2 = true ∧
    ∃ id ed, gSample1.edges.get? id = some ed ∧ ed.alive = true ∧
      (ed.u, ed.v, ed.w) = (4, 5, 6) ∧
      (∀ j f, gSample1.edges.get? j = some f → f.alive = true →
        (f.u, f.v, f.w) = (4, 5, 6) → j ≤ id) ∧
      (gSample1.removeEdge 4 5 6).1.edges =
        gSample1.edges.set id { ed with alive := false } ∧
      (gSample1.removeEdge 4 5 6).1.adj = gSample1.adj :=
  removeEdge_kills_last_alive bucketInv_gSample1
    ⟨4, ⟨4, 5, 6, true⟩, by decide, by decide, by decide⟩

/-- C9: the bucket invariant — every bucket holds exactly the ids of the
currently-alive instances of its triple, in insertion order — holds
initially and is preserved by `ensureNode`, `addEdge` and `removeEdge`;
hence an id is in a bucket exactly when it names an alive instance of that
bucket's triple, and `removeEdge` reports `true` exactly when an alive
instance of the requested triple exists. -/
theorem store_bucket_invariant :
    (∀ n : Int, BucketInv (mkGraph n)) ∧
    (∀ g : DynamicDirectedGraph, ∀ x : Int, BucketInv g →
      BucketInv (g.ensureNode x)) ∧
    (∀ g g' : DynamicDirectedGraph, ∀ u v w : Int, ∀ id : Nat,
      g.addEdge u v w = some (g', id) → BucketInv g → BucketInv g') ∧
    (∀ g : DynamicDirectedGraph, ∀ u v w : Int, BucketInv g →
      BucketInv (g.removeEdge u v w).1) ∧
    (∀ g : DynamicDirectedGraph, ∀ k : Int × Int × Int, ∀ id : Nat,
      BucketInv g → (id ∈ g.bucket k ↔
        ∃ e, g.edges.get? id = some e ∧ e.alive = true ∧ (e.u, e.v, e.w) = k)) ∧
    (∀ g : DynamicDirectedGraph, ∀ u v w : Int, BucketInv g →
      ((g.removeEdge u v w).2 = true ↔
        ∃ id e, g.edges.get? id = some e ∧ e.alive = true ∧
          (e.u, e.v, e.w) = (u, v, w))) :=
  ⟨bucketInv_mkGraph,
   fun _ x h => bucketInv_ensureNode x h,
   fun _ _ _ _ _ _ hadd h => bucketInv_addEdge h hadd,
   fun _ u v w h => bucketInv_removeEdge u v w h,
   fun _ _ _ h => mem_bucket_iff h,
   fun _ u v w h => removeEdge_snd_iff u v w h⟩

/-- Closed witness for `store_bucket_invariant`: the invariant-dependent
conjuncts applied to a concrete store. -/
theorem store_bucket_invariant_witness :
    BucketInv (mkGraph 2) ∧ BucketInv ((mkGraph 2).ensureNode 7) ∧
    ((mkGraph 2).removeEdge 1 2 3).2 = false := by
  have h := store_bucket_invariant
  refine ⟨h.1 2, h.2.1 _ 7 (h.1 2), ?_⟩
  have hiff := h.2.2.2.2.2 (mkGraph 2) 1 2 3 (h.1 2)
  cases hr : ((mkGraph 2).removeEdge 1 2 3).2 with
  | false => rfl
  | true =>
    obtain ⟨id, e, he, -, -⟩ := hiff.mp hr
    rw [show (mkGraph 2).edges = [] from rfl] at he
    simp at he

theorem labD_eq_getD_zero {dist bm : List Int} {n : Nat}
    (h1 : n < dist.length) (h2 : n < bm.length) :
    (dist.getD n 0, bm.getD n 0) = labD dist bm n := by
  unfold labD
  rw [getD_irrel h1 0 INF, getD_irrel h2 0 INTMAX]

theorem relaxAll_nil (g : DynamicDirectedGraph) (cur : PQItem)
    (pq : List PQItem) (dist bm : List Int) :
    relaxAll g cur [] pq dist bm = some (pq, dist, bm) := rfl

theorem relaxAll_cons_dead {g : DynamicDirectedGraph} {cur : PQItem}
    {id : Nat} {rest : List Nat} {pq : List PQItem} {dist bm : List Int}
    {e : Edge} (he : g.edges.get? id = some e) (ha : e.alive = false) :
    relaxAll g cur (id :: rest) pq dist bm = relaxAll g cur rest pq dist bm := by
  conv_lhs => rw [relaxAll]
  rw [he]
  simp [ha]

theorem relaxAll_cons_alive {g : DynamicDirectedGraph} {cur : PQItem}
    {id : Nat} {rest : List Nat} {pq : List PQItem} {dist bm : List Int}
    {e : Edge} (he : g.edges.get? id = some e) (ha : e.alive = true)
    (hb : 0 ≤ e.v ∧ e.v.toNat < dist.length ∧ e.v.toNat < bm.length) :
    relaxAll g cur (id :: rest) pq dist bm =
      if accepts (dist.getD e.v.toNat 0) (bm.getD e.v.toNat 0)
          (cur.d + e.w) (max cur.b e.w) then
        relaxAll g cur rest (pqInsert ⟨cur.d + e.w, max cur.b e.w, e.v⟩ pq)
          (dist.set e.v.toNat (cur.d + e.w)) (bm.set e.v.toNat (max cur.b e.w))
      else relaxAll g cur rest pq dist bm := by
  conv_lhs => rw [relaxAll]
  rw [he]
  dsimp only
  rw [if_neg (by simp [ha]), if_pos hb]

/-- Processing the adjacency sweep of one non-stale entry `cur`: given the
loop invariant restricted away from the still-unprocessed suffix `todo` of
`cur.v`'s adjacency list, the sweep succeeds and restores the full invariant
at bound `pqKey cur`, never touches `cur.v`'s own label, only lowers labels,
and does not increase `queue length + open edges`. -/
theorem relaxAll_spec {g : DynamicDirectedGraph} {S : Int} {L : Nat}
    (HE : EdgesInv g)
    {cur : PQItem} (hcv0 : 0 ≤ cur.v)
    (hKpath : ∃ p, IsPath g S cur.v p ∧ pathKey g p = pqKey cur) :
    ∀ todo pq dist bm,
    dist.length = L → bm.length = L → g.adj.length ≤ L →
    pq.Pairwise (fun a b => lexLe (pqKey a) (pqKey b)) →
    (∀ it ∈ pq, lexLe (pqKey cur) (pqKey it)) →
    (∀ it ∈ pq, 0 ≤ it.v ∧ it.v.toNat < g.adj.length) →
    (∀ it ∈ pq, ∃ p, IsPath g S it.v p ∧ pathKey g p = pqKey it) →
    (∀ it ∈ pq, lexLe (labD dist bm it.v.toNat) (pqKey it)) →
    (∀ n, n < L → labD dist bm n = initLab ∨
      ∃ p, IsPath g S (n : Int) p ∧ pathKey g p = labD dist bm n) →
    (∀ n, lexLe (labD dist bm n) initLab) →
    labD dist bm cur.v.toNat = pqKey cur →
    (∀ id ∈ todo, ∃ e, g.edges.get? id = some e ∧ e.u = cur.v) →
    (∀ id e, g.edges.get? id = some e → e.alive = true → id ∉ todo →
      labD dist bm e.u.toNat = initLab ∨
      (lexLe (labD dist bm e.u.toNat) (pqKey cur) ∧
        lexLe (labD dist bm e.v.toNat)
          (extLab (labD dist bm e.u.toNat) e.w)) ∨
      ∃ it ∈ pq, it.v = e.u ∧ pqKey it = labD dist bm e.u.toNat) →
    ∃ pq' dist' bm',
      relaxAll g cur todo pq dist bm = some (pq', dist', bm') ∧
      DInv g S L (pqKey cur) pq' dist' bm' ∧
      labD dist' bm' cur.v.toNat = pqKey cur ∧
      (∀ n, lexLe (labD dist' bm' n) (labD dist bm n)) ∧
      pq'.length + openCard g (pqKey cur) dist' bm' ≤
        pq.length + openCard g (pqKey cur) dist bm := by
  intro todo
  induction todo with
  | nil =>
    intro pq dist bm hdl hbl hadjL hsorted hqlow hqv hqpath hqlab hlsound
      hlinit hKlab htodo hpend
    refine ⟨pq, dist, bm, relaxAll_nil g cur pq dist bm, ?_, hKlab,
      fun n => lexLe_refl _, le_rfl⟩
    exact ⟨hdl, hbl, hsorted, hqlow, hqv, hqpath, hqlab, hlsound, hlinit,
      fun id e he ha => hpend id e he ha (List.not_mem_nil id)⟩
  | cons id rest ih =>
    intro pq dist bm hdl hbl hadjL hsorted hqlow hqv hqpath hqlab hlsound
      hlinit hKlab htodo hpend
    obtain ⟨e, he, heu⟩ := htodo id (List.mem_cons_self id rest)
    obtain ⟨he_u0, he_uL, hv0, hvL, hw0⟩ := HE id e he
    have hidlt : id < g.edges.length := (List.get?_eq_some.mp he).1
    have htodo' : ∀ j ∈ rest, ∃ f, g.edges.get? j = some f ∧ f.u = cur.v :=
      fun j hj => htodo j (List.mem_cons_of_mem id hj)
    by_cases ha : e.alive = true
    case neg =>
      have ha' : e.alive = false := by
        cases hh : e.alive
        · rfl
        · exact absurd hh ha
      rw [relaxAll_cons_dead he ha']
      refine ih pq dist bm hdl hbl hadjL hsorted hqlow hqv hqpath hqlab
        hlsound hlinit hKlab htodo' ?_
      intro j f hf hfa hjnot
      by_cases hj : j = id
      · subst hj
        rw [he] at hf
        cases Option.some.inj hf
        rw [ha'] at hfa
        cases hfa
      · exact hpend j f hf hfa (by simp [hj, hjnot])
    case pos =>
      rw [relaxAll_cons_alive he ha ⟨hv0, by omega, by omega⟩]
      have hbridge : (dist.getD e.v.toNat 0, bm.getD e.v.toNat 0) =
          labD dist bm e.v.toNat :=
        labD_eq_getD_zero (by omega) (by omega)
      have hKnew : lexLe (pqKey cur) (cur.d + e.w, max cur.b e.w) :=
        lexLe_extLab_self _ hw0
      by_cases hacc : accepts (dist.getD e.v.toNat 0) (bm.getD e.v.toNat 0)
          (cur.d + e.w) (max cur.b e.w)
      case pos =>
        rw [if_pos hacc]
        have haccL : lexLt (cur.d + e.w, max cur.b e.w)
            (labD dist bm e.v.toNat) := by
          have hx := accepts_iff_lexLt.mp hacc
          rw [hbridge] at hx
          exact hx
        have hvne : e.v.toNat ≠ cur.v.toNat := by
          intro hh
          rw [hh, hKlab] at haccL
          exact lexLt_irrefl _ (lexLt_of_lt_of_le haccL hKnew)
        -- the new queue entry and the updated label arrays
        have hinsKey : pqKey (⟨cur.d + e.w, max cur.b e.w, e.v⟩ : PQItem) =
            (cur.d + e.w, max cur.b e.w) := rfl
        have hsetlab : labD (dist.set e.v.toNat (cur.d + e.w))
            (bm.set e.v.toNat (max cur.b e.w)) e.v.toNat =
            (cur.d + e.w, max cur.b e.w) :=
          labD_set_self (by omega) (by omega) _ _
        have hdec : ∀ n, lexLe (labD (dist.set e.v.toNat (cur.d + e.w))
            (bm.set e.v.toNat (max cur.b e.w)) n) (labD dist bm n) :=
          labels_decrease_step (by omega) (by omega) haccL
        have hsnoc : ∃ p, IsPath g S e.v p ∧
            pathKey g p = (cur.d + e.w, max cur.b e.w) := by
          obtain ⟨p, hp, hpk⟩ := hKpath
          refine ⟨p ++ [id], isPath_snoc hp he ha heu, ?_⟩
          rw [pathKey_snoc he hw0, hpk]
          rfl
        obtain ⟨pq', dist', bm', heq, hdinv, hklab', hmono', hacct'⟩ :=
          ih (pqInsert ⟨cur.d + e.w, max cur.b e.w, e.v⟩ pq)
            (dist.set e.v.toNat (cur.d + e.w))
            (bm.set e.v.toNat (max cur.b e.w))
            (by simp [hdl]) (by simp [hbl]) hadjL
            (pairwise_pqInsert hsorted)
            (by
              intro it hit
              rcases mem_pqInsert.mp hit with rfl | hit2
              · exact hKnew
              · exact hqlow it hit2)
            (by
              intro it hit
              rcases mem_pqInsert.mp hit with rfl | hit2
              · exact ⟨hv0, hvL⟩
              · exact hqv it hit2)
            (by
              intro it hit
              rcases mem_pqInsert.mp hit with rfl | hit2
              · exact hsnoc
              · exact hqpath it hit2)
            (by
              intro it hit
              rcases mem_pqInsert.mp hit with rfl | hit2
              · rw [hinsKey, hsetlab]
                exact lexLe_refl _
              · exact lexLe_trans (hdec it.v.toNat) (hqlab it hit2))
            (by
              intro n hn
              by_cases hne : n = e.v.toNat
              · subst hne
                rw [hsetlab]
                right
                rw [show ((e.v.toNat : Nat) : Int) = e.v from
                  Int.toNat_of_nonneg hv0]
                exact hsnoc
              · rw [labD_set_ne (fun hh => hne hh.symm)]
                exact hlsound n hn)
            (fun n => lexLe_trans (hdec n) (hlinit n))
            (by rw [labD_set_ne hvne]; exact hKlab)
            htodo'
            (by
              intro j f hf hfa hjnot
              by_cases hj : j = id
              · subst hj
                rw [he] at hf
                cases Option.some.inj hf
                right; left
                constructor
                · rw [show e.u.toNat = cur.v.toNat from by rw [heu],
                    labD_set_ne hvne, hKlab]
                  exact lexLe_refl _
                · rw [show e.u.toNat = cur.v.toNat from by rw [heu],
                    labD_set_ne hvne, hKlab, hsetlab]
                  exact lexLe_refl _
              · have hjnot2 : j ∉ id :: rest := by simp [hj, hjnot]
                obtain ⟨hf_u0, -, hf_v0, -, -⟩ := HE j f hf
                rcases hpend j f hf hfa hjnot2 with hinit | ⟨hfr, hst⟩ |
                  ⟨it, hit, hitv, hitk⟩
                · by_cases hun : f.u.toNat = e.v.toNat
                  · right; right
                    refine ⟨⟨cur.d + e.w, max cur.b e.w, e.v⟩,
                      mem_pqInsert.mpr (Or.inl rfl), ?_, ?_⟩
                    · show e.v = f.u
                      omega
                    · rw [hinsKey, hun, hsetlab]
                  · left
                    rw [labD_set_ne (fun hh => hun hh.symm)]
                    exact hinit
                · have hun : f.u.toNat ≠ e.v.toNat := by
                    intro hh
                    rw [hh] at hfr
                    exact lexLt_irrefl _
                      (lexLt_of_lt_of_le haccL (lexLe_trans hfr hKnew))
                  right; left
                  rw [labD_set_ne (fun hh => hun hh.symm)]
                  refine ⟨hfr, ?_⟩
                  by_cases hvn : f.v.toNat = e.v.toNat
                  · rw [hvn, hsetlab]
                    refine lexLe_trans ?_ hst
                    rw [← hvn] at haccL
                    exact lexLe_of_lt haccL
                  · rw [labD_set_ne (fun hh => hvn hh.symm)]
                    exact hst
                · by_cases hun : f.u.toNat = e.v.toNat
                  · right; right
                    refine ⟨⟨cur.d + e.w, max cur.b e.w, e.v⟩,
                      mem_pqInsert.mpr (Or.inl rfl), ?_, ?_⟩
                    · show e.v = f.u
                      omega
                    · rw [hinsKey, hun, hsetlab]
                  · right; right
                    refine ⟨it, mem_pqInsert.mpr (Or.inr hit), hitv, ?_⟩
                    rw [labD_set_ne (fun hh => hun hh.symm)]
                    exact hitk)
        refine ⟨pq', dist', bm', heq, hdinv, hklab',
          fun n => lexLe_trans (hmono' n) (hdec n), ?_⟩
        -- accounting: the accepted edge was open and is now closed forever
        have hopen_old : openPred g (pqKey cur) dist bm id = true := by
          refine openPred_true_iff.mpr ⟨e, he, ha, ?_⟩
          rintro ⟨-, hst⟩
          rw [show e.u.toNat = cur.v.toNat from by rw [heu], hKlab] at hst
          exact lexLt_irrefl _ (lexLt_of_le_of_lt hst haccL)
        have hopen_new : openPred g (pqKey cur)
            (dist.set e.v.toNat (cur.d + e.w))
            (bm.set e.v.toNat (max cur.b e.w)) id = false := by
          refine openPred_false_of_closed he ?_ ?_
          · rw [show e.u.toNat = cur.v.toNat from by rw [heu],
              labD_set_ne hvne, hKlab]
            exact lexLe_refl _
          · rw [show e.u.toNat = cur.v.toNat from by rw [heu],
              labD_set_ne hvne, hKlab, hsetlab]
            exact lexLe_refl _
        have hmem_old : id ∈ (Finset.range g.edges.length).filter
            (fun j => openPred g (pqKey cur) dist bm j = true) :=
          Finset.mem_filter.mpr ⟨Finset.mem_range.mpr hidlt, hopen_old⟩
        have hsub : (Finset.range g.edges.length).filter
            (fun j => openPred g (pqKey cur)
              (dist.set e.v.toNat (cur.d + e.w))
              (bm.set e.v.toNat (max cur.b e.w)) j = true) ⊆
            ((Finset.range g.edges.length).filter
              (fun j => openPred g (pqKey cur) dist bm j = true)).erase id := by
          intro j hj
          obtain ⟨hjr, hjop⟩ := Finset.mem_filter.mp hj
          refine Finset.mem_erase.mpr ⟨?_, Finset.mem_filter.mpr ⟨hjr, ?_⟩⟩
          · intro hh
            subst hh
            rw [hopen_new] at hjop
            cases hjop
          · by_contra hcon
            have hcl : openPred g (pqKey cur) dist bm j = false := by
              cases hx : openPred g (pqKey cur) dist bm j
              · rfl
              · exact absurd hx hcon
            rw [closed_step (by omega) (by omega) hKnew haccL hcl] at hjop
            cases hjop
        have hcard_new : openCard g (pqKey cur)
            (dist.set e.v.toNat (cur.d + e.w))
            (bm.set e.v.toNat (max cur.b e.w)) ≤
            openCard g (pqKey cur) dist bm - 1 := by
          unfold openCard
          calc _ ≤ (((Finset.range g.edges.length).filter
                (fun j => openPred g (pqKey cur) dist bm j = true)).erase
                  id).card := Finset.card_le_card hsub
            _ = _ := by rw [Finset.card_erase_of_mem hmem_old]
        have hcard_pos : 1 ≤ openCard g (pqKey cur) dist bm := by
          unfold openCard
          exact Finset.card_pos.mpr ⟨id, hmem_old⟩
        have hlennew : (pqInsert ⟨cur.d + e.w, max cur.b e.w, e.v⟩ pq).length =
            pq.length + 1 := length_pqInsert _ _
        omega
      case neg =>
        rw [if_neg hacc]
        refine ih pq dist bm hdl hbl hadjL hsorted hqlow hqv hqpath hqlab
          hlsound hlinit hKlab htodo' ?_
        intro j f hf hfa hjnot
        by_cases hj : j = id
        · subst hj
          rw [he] at hf
          cases Option.some.inj hf
          right; left
          have hrej : lexLe (labD dist bm e.v.toNat)
              (cur.d + e.w, max cur.b e.w) := by
            have hx : ¬ lexLt (cur.d + e.w, max cur.b e.w)
                (labD dist bm e.v.toNat) := by
              intro hcon
              apply hacc
              rw [accepts_iff_lexLt, hbridge]
              exact hcon
            exact not_lexLt_iff.mp hx
          constructor
          · rw [show e.u.toNat = cur.v.toNat from by rw [heu], hKlab]
            exact lexLe_refl _
          · rw [show e.u.toNat = cur.v.toNat from by rw [heu], hKlab]
            exact hrej
        · exact hpend j f hf hfa (by simp [hj, hjnot])

theorem outEdges_in_range {g : DynamicDirectedGraph} {u : Int} (h0 : 0 ≤ u)
    (hL : u.toNat < g.adj.length) :
    g.outEdges u = g.adj.getD u.toNat [] := by
  unfold DynamicDirectedGraph.outEdges
  rw [if_pos ⟨h0, hL⟩]

theorem openCard_antitone {g : DynamicDirectedGraph} {B B' : Int × Int}
    {dist bm : List Int} (hBB : lexLe B B') :
    openCard g B' dist bm ≤ openCard g B dist bm := by
  unfold openCard
  apply Finset.card_le_card
  intro j hj
  obtain ⟨hjr, hjop⟩ := Finset.mem_filter.mp hj
  obtain ⟨e, he, ha, hopen⟩ := openPred_true_iff.mp hjop
  refine Finset.mem_filter.mpr ⟨hjr, openPred_true_iff.mpr ⟨e, he, ha, ?_⟩⟩
  rintro ⟨h1, h2⟩
  exact hopen ⟨lexLe_trans h1 hBB, h2⟩

theorem dijkstra_nil (g : DynamicDirectedGraph) (fuel : Nat)
    (dist bm : List Int) : dijkstra g fuel [] dist bm = some (dist, bm) := by
  cases fuel <;> rfl

theorem dijkstra_cons (g : DynamicDirectedGraph) (fuel : Nat) (cur : PQItem)
    (pq : List PQItem) (dist bm : List Int) :
    dijkstra g (fuel + 1) (cur :: pq) dist bm =
      if 0 ≤ cur.v ∧ cur.v.toNat < dist.length ∧ cur.v.toNat < bm.length then
        if cur.d = dist.getD cur.v.toNat 0 ∧ cur.b = bm.getD cur.v.toNat 0 then
          match relaxAll g cur (g.outEdges cur.v) pq dist bm with
          | some (pq', dist', bm') => dijkstra g fuel pq' dist' bm'
          | none => none
        else dijkstra g fuel pq dist bm
      else none := rfl

/-- Correctness of the Dijkstra loop: from any state satisfying the
invariant, with fuel at least `queue length + open edges`, the loop drains
the queue and leaves labels that are sound (genuine path keys or untouched),
bounded by the unreached label, stable along every alive edge, and no larger
than the starting labels. -/
theorem dijkstra_spec {g : DynamicDirectedGraph} {S : Int} {L : Nat}
    (HE : EdgesInv g) (HA : AdjInv g) (HL : g.adj.length ≤ L) :
    ∀ fuel (B : Int × Int) pq dist bm,
    DInv g S L B pq dist bm →
    pq.length + openCard g B dist bm ≤ fuel →
    ∃ dist' bm',
      dijkstra g fuel pq dist bm = some (dist', bm') ∧
      dist'.length = L ∧ bm'.length = L ∧
      (∀ n, n < L → labD dist' bm' n = initLab ∨
        ∃ p, IsPath g S (n : Int) p ∧ pathKey g p = labD dist' bm' n) ∧
      (∀ n, lexLe (labD dist' bm' n) initLab) ∧
      (∀ id e, g.edges.get? id = some e → e.alive = true →
        lexLe (labD dist' bm' e.v.toNat)
          (extLab (labD dist' bm' e.u.toNat) e.w)) ∧
      (∀ n, lexLe (labD dist' bm' n) (labD dist bm n)) := by
  intro fuel
  induction fuel with
  | zero =>
    intro B pq dist bm hinv hfuel
    cases pq with
    | cons c cs => simp at hfuel
    | nil =>
      refine ⟨dist, bm, dijkstra_nil g 0 dist bm, hinv.hdl, hinv.hbl,
        hinv.lsound, hinv.linit, ?_, fun n => lexLe_refl _⟩
      intro id e he ha
      rcases hinv.pend id e he ha with hinit | ⟨-, hst⟩ | ⟨it, hit, -⟩
      · rw [hinit]
        exact stable_of_init (hinv.linit e.v.toNat) (HE id e he).2.2.2.2
      · exact hst
      · cases hit
  | succ fuel ihf =>
    intro B pq dist bm hinv hfuel
    cases pq with
    | nil =>
      refine ⟨dist, bm, dijkstra_nil g (fuel + 1) dist bm, hinv.hdl, hinv.hbl,
        hinv.lsound, hinv.linit, ?_, fun n => lexLe_refl _⟩
      intro id e he ha
      rcases hinv.pend id e he ha with hinit | ⟨-, hst⟩ | ⟨it, hit, -⟩
      · rw [hinit]
        exact stable_of_init (hinv.linit e.v.toNat) (HE id e he).2.2.2.2
      · exact hst
      · cases hit
    | cons cur pq =>
      have hcur := hinv.qv cur (List.mem_cons_self cur pq)
      have hcv0 : 0 ≤ cur.v := hcur.1
      have hcvL : cur.v.toNat < g.adj.length := hcur.2
      have hdl := hinv.hdl
      have hbl := hinv.hbl
      rw [dijkstra_cons, if_pos ⟨hcv0, by omega, by omega⟩]
      by_cases hchk : cur.d = dist.getD cur.v.toNat 0 ∧
          cur.b = bm.getD cur.v.toNat 0
      case neg =>
        -- stale entry: drop it and continue
        rw [if_neg hchk]
        have htail : DInv g S L B pq dist bm := by
          refine ⟨hdl, hbl, (List.pairwise_cons.mp hinv.sorted).2,
            fun it hit => hinv.qlow it (List.mem_cons_of_mem cur hit),
            fun it hit => hinv.qv it (List.mem_cons_of_mem cur hit),
            fun it hit => hinv.qpath it (List.mem_cons_of_mem cur hit),
            fun it hit => hinv.qlab it (List.mem_cons_of_mem cur hit),
            hinv.lsound, hinv.linit, ?_⟩
          intro id e he ha
          rcases hinv.pend id e he ha with hinit | hfs | ⟨it, hit, hitv, hitk⟩
          · exact Or.inl hinit
          · exact Or.inr (Or.inl hfs)
          · rcases List.mem_cons.mp hit with heq | hit2
            · exfalso
              apply hchk
              have hb1 : cur.v.toNat < dist.length := by omega
              have hb2 : cur.v.toNat < bm.length := by omega
              have hx : pqKey cur = labD dist bm cur.v.toNat := by
                have h1 : pqKey it = labD dist bm it.v.toNat := by
                  rw [hitk, hitv]
                rw [← heq]
                exact h1
              have hy : labD dist bm cur.v.toNat =
                  (dist.getD cur.v.toNat 0, bm.getD cur.v.toNat 0) :=
                (labD_eq_getD_zero hb1 hb2).symm
              rw [hy] at hx
              exact ⟨congrArg Prod.fst hx, congrArg Prod.snd hx⟩
            · exact Or.inr (Or.inr ⟨it, hit2, hitv, hitk⟩)
        have hfuel2 : pq.length + openCard g B dist bm ≤ fuel := by
          have hh : (cur :: pq).length = pq.length + 1 := rfl
          omega
        exact ihf B pq dist bm htail hfuel2
      case pos =>
        rw [if_pos hchk]
        have hKlab : labD dist bm cur.v.toNat = pqKey cur := by
          have hy : labD dist bm cur.v.toNat =
              (dist.getD cur.v.toNat 0, bm.getD cur.v.toNat 0) :=
            (labD_eq_getD_zero (by omega) (by omega)).symm
          rw [hy, ← hchk.1, ← hchk.2]
          rfl
        have hBK : lexLe B (pqKey cur) :=
          hinv.qlow cur (List.mem_cons_self cur pq)
        have htodoAll : ∀ j ∈ g.outEdges cur.v,
            ∃ f, g.edges.get? j = some f ∧ f.u = cur.v := by
          intro j hj
          rw [outEdges_in_range hcv0 hcvL] at hj
          obtain ⟨f, hf, hfu⟩ := HA.1 cur.v.toNat j hj
          exact ⟨f, hf, by rw [hfu, Int.toNat_of_nonneg hcv0]⟩
        obtain ⟨pq', dist', bm', heq, hdinv, -, hmono', hacct'⟩ :=
          relaxAll_spec HE hcv0
            (hinv.qpath cur (List.mem_cons_self cur pq))
            (g.outEdges cur.v) pq dist bm hdl hbl HL
            (List.pairwise_cons.mp hinv.sorted).2
            (List.pairwise_cons.mp hinv.sorted).1
            (fun it hit => hinv.qv it (List.mem_cons_of_mem cur hit))
            (fun it hit => hinv.qpath it (List.mem_cons_of_mem cur hit))
            (fun it hit => hinv.qlab it (List.mem_cons_of_mem cur hit))
            hinv.lsound hinv.linit hKlab htodoAll
            (by
              intro j f hf hfa hjnot
              rcases hinv.pend j f hf hfa with hinit | ⟨hfr, hst⟩ |
                ⟨it, hit, hitv, hitk⟩
              · exact Or.inl hinit
              · exact Or.inr (Or.inl ⟨lexLe_trans hfr hBK, hst⟩)
              · rcases List.mem_cons.mp hit with rfl | hit2
                · exfalso
                  apply hjnot
                  rw [outEdges_in_range hcv0 hcvL]
                  have hx := HA.2 j f hf
                  rw [← hitv] at hx
                  exact hx
                · exact Or.inr (Or.inr ⟨it, hit2, hitv, hitk⟩))
        rw [heq]
        obtain ⟨dist2, bm2, heq2, hl1, hl2, hsound2, hinit2, hstab2, hmono2⟩ :=
          ihf (pqKey cur) pq' dist' bm' hdinv
            (by
              have hanti : openCard g (pqKey cur) dist bm ≤
                  openCard g B dist bm := openCard_antitone hBK
              have hh : (cur :: pq).length = pq.length + 1 := rfl
              omega)
        exact ⟨dist2, bm2, heq2, hl1, hl2, hsound2, hinit2, hstab2,
          fun n => lexLe_trans (hmono2 n) (hmono' n)⟩

theorem getD_replicate_self {n m : Nat} {a : Int} :
    (List.replicate n a).getD m a = a := by
  rw [List.getD_eq_getElem?_getD, List.getElem?_replicate]
  split <;> rfl

theorem labD_replicate {L L' : Nat} (n : Nat) :
    labD (List.replicate L INF) (List.replicate L' INTMAX) n = initLab := by
  unfold labD
  rw [getD_replicate_self, getD_replicate_self]
  rfl

theorem ensureNode_length (g : DynamicDirectedGraph) {x : Int} (hx : 0 ≤ x) :
    (g.ensureNode x).adj.length = max g.adj.length (x.toNat + 1) := by
  unfold DynamicDirectedGraph.ensureNode
  rw [if_neg (by omega)]
  split
  · simp
    omega
  · omega

theorem growToInclude_dist_length (e : LexiSSSP) {x : Int} (hx : 0 ≤ x) :
    (e.growToInclude x).dist.length = max e.dist.length (x.toNat + 1) := by
  rw [LexiSSSP.growToInclude_def, if_neg (by omega)]
  split
  · show (resizeL e.dist (x.toNat + 1) INF).length = _
    rw [resizeL_length]
    omega
  · show e.dist.length = _
    omega

theorem growToInclude_gadj_length (e : LexiSSSP) {x : Int} (hx : 0 ≤ x) :
    (e.growToInclude x).g.adj.length = max e.g.adj.length (x.toNat + 1) := by
  rw [LexiSSSP.growToInclude_def, if_neg (by omega)]
  split <;> exact ensureNode_length e.g hx

theorem growToInclude_lengths_eq {e : LexiSSSP}
    (h : e.dist.length = e.bestMax.length) (x : Int) :
    (e.growToInclude x).dist.length = (e.growToInclude x).bestMax.length := by
  rw [LexiSSSP.growToInclude_def]
  split
  · exact h
  split
  · show (resizeL e.dist _ INF).length = (resizeL e.bestMax _ INTMAX).length
    rw [resizeL_length, resizeL_length]
    omega
  · exact h

theorem growToInclude_adj_le_dist {e : LexiSSSP}
    (h : e.g.adj.length ≤ e.dist.length) (x : Int) :
    (e.growToInclude x).g.adj.length ≤ (e.growToInclude x).dist.length := by
  by_cases hx : 0 ≤ x
  · rw [growToInclude_dist_length e hx, growToInclude_gadj_length e hx]
    omega
  · rw [LexiSSSP.growToInclude_eq_self e (Or.inl (by omega))]
    exact h

theorem edgesInv_ensureNode {g : DynamicDirectedGraph} (HE : EdgesInv g)
    (x : Int) : EdgesInv (g.ensureNode x) := by
  intro id e he
  rw [DynamicDirectedGraph.ensureNode_edges] at he
  obtain ⟨h1, h2, h3, h4, h5⟩ := HE id e he
  have := DynamicDirectedGraph.length_le_ensureNode_adj g x
  exact ⟨h1, by omega, h3, by omega, h5⟩

theorem adjInv_ensureNode {g : DynamicDirectedGraph} (HA : AdjInv g)
    (x : Int) : AdjInv (g.ensureNode x) := by
  constructor
  · intro n id hid
    rw [DynamicDirectedGraph.ensureNode_getD_adj] at hid
    obtain ⟨e, he, heu⟩ := HA.1 n id hid
    exact ⟨e, by rw [DynamicDirectedGraph.ensureNode_edges]; exact he, heu⟩
  · intro id e he
    rw [DynamicDirectedGraph.ensureNode_edges] at he
    rw [DynamicDirectedGraph.ensureNode_getD_adj]
    exact HA.2 id e he

theorem wfg_ensureNode {g : DynamicDirectedGraph} (hwf : WFG g) (x : Int) :
    WFG (g.ensureNode x) :=
  ⟨edgesInv_ensureNode hwf.1 x, adjInv_ensureNode hwf.2.1 x,
   bucketInv_ensureNode x hwf.2.2⟩

theorem isPath_congr_edges {g g' : DynamicDirectedGraph}
    (h : g'.edges = g.edges) {S t : Int} {p : List Nat} :
    IsPath g' S t p → IsPath g S t p := by
  intro hp
  induction hp with
  | nil s => exact IsPath.nil s
  | cons he ha hu _ ih => exact IsPath.cons (h ▸ he) ha hu ih

theorem pathKey_congr_edges {g g' : DynamicDirectedGraph}
    (h : g'.edges = g.edges) (p : List Nat) : pathKey g' p = pathKey g p := by
  unfold pathKey pathSum pathMax pathWt
  rw [h]

theorem optimalAt_congr_edges {g g' : DynamicDirectedGraph}
    (h : g'.edges = g.edges) {S : Int} {n : Nat} {lab : Int × Int}
    (ho : OptimalAt g' S n lab) : OptimalAt g S n lab := by
  obtain ⟨hmem, hle, hlb⟩ := ho
  refine ⟨?_, hle, ?_⟩
  · rcases hmem with hl | ⟨p, hp, hk⟩
    · exact Or.inl hl
    · exact Or.inr ⟨p, isPath_congr_edges h hp, by rw [← pathKey_congr_edges h]; exact hk⟩
  · intro p hp
    have hp' : IsPath g' S (n : Int) p := isPath_congr_edges h.symm hp
    rw [← pathKey_congr_edges h p]
    exact hlb p hp'

theorem refillLabels_dist (e : LexiSSSP) :
    e.refillLabels.dist = List.replicate e.dist.length INF := rfl

theorem refillLabels_bestMax (e : LexiSSSP) :
    e.refillLabels.bestMax = List.replicate e.bestMax.length INTMAX := rfl

theorem resizeL_replicate (k m : Nat) (a : Int) :
    resizeL (List.replicate k a) m a = List.replicate m a := by
  unfold resizeL
  rw [List.take_replicate, List.length_replicate, ← List.replicate_add]
  congr 1
  omega

theorem growToInclude_g (e : LexiSSSP) {x : Int} (hx : 0 ≤ x) :
    (e.growToInclude x).g = e.g.ensureNode x := by
  rw [LexiSSSP.growToInclude_def, if_neg (by omega)]
  split <;> rfl

theorem growToInclude_replicate_form {e : LexiSSSP}
    (hd : e.dist = List.replicate e.dist.length INF)
    (hb : e.bestMax = List.replicate e.bestMax.length INTMAX) (x : Int) :
    (e.growToInclude x).dist =
      List.replicate (e.growToInclude x).dist.length INF ∧
    (e.growToInclude x).bestMax =
      List.replicate (e.growToInclude x).bestMax.length INTMAX := by
  rw [LexiSSSP.growToInclude_def]
  split
  · exact ⟨hd, hb⟩
  split
  · constructor
    · show resizeL e.dist (x.toNat + 1) INF = _
      rw [show (resizeL e.dist (x.toNat + 1) INF).length = x.toNat + 1 from ?_]
      · conv_lhs => rw [hd]
        rw [show e.dist.length = (List.replicate e.dist.length INF).length by simp] at hd ⊢
        exact resizeL_replicate _ _ _
      · conv_lhs => rw [hd]
        rw [resizeL_replicate, List.length_replicate]
    · show resizeL e.bestMax (x.toNat + 1) INTMAX = _
      rw [show (resizeL e.bestMax (x.toNat + 1) INTMAX).length = x.toNat + 1 from ?_]
      · conv_lhs => rw [hb]
        exact resizeL_replicate _ _ _
      · conv_lhs => rw [hb]
        rw [resizeL_replicate, List.length_replicate]
  · exact ⟨hd, hb⟩

theorem recompute_def (e : LexiSSSP) :
    e.recompute =
      if 0 ≤ e.S then
        (dijkstra
            (((e.growToInclude e.g.nodeCapacity).refillLabels).growToInclude
              e.S).g
            ((((e.growToInclude e.g.nodeCapacity).refillLabels).growToInclude
              e.S).g.edges.length + 1)
            [⟨0, 0, e.S⟩]
            ((((e.growToInclude e.g.nodeCapacity).refillLabels).growToInclude
              e.S).dist.set e.S.toNat 0)
            ((((e.growToInclude e.g.nodeCapacity).refillLabels).growToInclude
              e.S).bestMax.set e.S.toNat 0)).map
          fun r =>
            { ((e.growToInclude e.g.nodeCapacity).refillLabels).growToInclude
                e.S with
              dist := r.1, bestMax := r.2, dirty := false }
      else none := rfl

/-- A full `recompute` on a well-formed engine with a non-negative source
succeeds and produces a clean engine, over the same edge set, whose labels
are all optimal. -/
theorem recompute_spec {e : LexiSSSP} (hwf : WFG e.g)
    (hlen : e.dist.length = e.bestMax.length)
    (hadj : e.g.adj.length ≤ e.dist.length) (hS : 0 ≤ e.S) :
    ∃ e', e.recompute = some e' ∧
      e'.g.edges = e.g.edges ∧ e'.g.bucket = e.g.bucket ∧
      e'.S = e.S ∧ e'.dirty = false ∧
      WFG e'.g ∧ e'.dist.length = e'.bestMax.length ∧
      e'.g.adj.length ≤ e'.dist.length ∧
      e.dist.length ≤ e'.dist.length ∧
      e.g.adj.length ≤ e'.g.adj.length ∧
      e'.S.toNat < e'.dist.length ∧
      (∀ n, n < e'.dist.length →
        OptimalAt e'.g e'.S n (labD e'.dist e'.bestMax n)) := by
  have he1 : e.growToInclude e.g.nodeCapacity = e := by
    apply LexiSSSP.growToInclude_eq_self
    unfold DynamicDirectedGraph.nodeCapacity
    rcases Nat.eq_zero_or_pos e.g.adj.length with h0 | h0
    · left
      omega
    · right
      constructor <;> omega
  obtain ⟨hd3, hb3⟩ := growToInclude_replicate_form
    (show e.refillLabels.dist = List.replicate e.refillLabels.dist.length INF by
      rw [refillLabels_dist, List.length_replicate])
    (show e.refillLabels.bestMax =
        List.replicate e.refillLabels.bestMax.length INTMAX by
      rw [refillLabels_bestMax, List.length_replicate])
    e.S
  have hS3 : (e.refillLabels.growToInclude e.S).S = e.S := by
    rw [LexiSSSP.growToInclude_S, LexiSSSP.refillLabels_S]
  have hedges3 : (e.refillLabels.growToInclude e.S).g.edges = e.g.edges := by
    rw [LexiSSSP.growToInclude_edges, LexiSSSP.refillLabels_g]
  have hbucket3 : (e.refillLabels.growToInclude e.S).g.bucket = e.g.bucket := by
    rw [LexiSSSP.growToInclude_bucket, LexiSSSP.refillLabels_g]
  have hg3 : (e.refillLabels.growToInclude e.S).g = e.g.ensureNode e.S := by
    rw [growToInclude_g _ hS, LexiSSSP.refillLabels_g]
  have hwf3 : WFG (e.refillLabels.growToInclude e.S).g := by
    rw [hg3]
    exact wfg_ensureNode hwf e.S
  have hlen3 : (e.refillLabels.growToInclude e.S).dist.length =
      (e.refillLabels.growToInclude e.S).bestMax.length :=
    growToInclude_lengths_eq
      (by rw [refillLabels_dist, refillLabels_bestMax]; simp [hlen]) e.S
  have hadj3 : (e.refillLabels.growToInclude e.S).g.adj.length ≤
      (e.refillLabels.growToInclude e.S).dist.length :=
    growToInclude_adj_le_dist
      (by rw [LexiSSSP.refillLabels_g, refillLabels_dist]; simp [hadj]) e.S
  have hScov : e.S.toNat < (e.refillLabels.growToInclude e.S).dist.length := by
    have := LexiSSSP.growToInclude_dist_covers e.refillLabels hS
    omega
  have hSadj : e.S.toNat <
      (e.refillLabels.growToInclude e.S).g.adj.length := by
    have := LexiSSSP.growToInclude_adj_covers e.refillLabels hS
    omega
  have hrd : e.refillLabels.dist.length = e.dist.length := by
    rw [refillLabels_dist, List.length_replicate]
  have hdistmono : e.dist.length ≤
      (e.refillLabels.growToInclude e.S).dist.length := by
    have := LexiSSSP.length_le_growToInclude_dist e.refillLabels e.S
    omega
  have hadjmono : e.g.adj.length ≤
      (e.refillLabels.growToInclude e.S).g.adj.length := by
    have h0 := LexiSSSP.length_le_growToInclude_adj e.refillLabels e.S
    rw [LexiSSSP.refillLabels_g] at h0
    exact h0
  have hlab1S : labD
      ((e.refillLabels.growToInclude e.S).dist.set e.S.toNat 0)
      ((e.refillLabels.growToInclude e.S).bestMax.set e.S.toNat 0)
      e.S.toNat = (0, 0) :=
    labD_set_self hScov (by omega) 0 0
  have hlab1ne : ∀ n, n ≠ e.S.toNat → labD
      ((e.refillLabels.growToInclude e.S).dist.set e.S.toNat 0)
      ((e.refillLabels.growToInclude e.S).bestMax.set e.S.toNat 0)
      n = initLab := by
    intro n hn
    rw [labD_set_ne (fun hh => hn hh.symm)]
    conv_lhs => rw [hd3, hb3]
    exact labD_replicate n
  have hdinv : DInv (e.refillLabels.growToInclude e.S).g e.S
      (e.refillLabels.growToInclude e.S).dist.length (0, 0) [⟨0, 0, e.S⟩]
      ((e.refillLabels.growToInclude e.S).dist.set e.S.toNat 0)
      ((e.refillLabels.growToInclude e.S).bestMax.set e.S.toNat 0) := by
    refine ⟨by rw [List.length_set], by rw [List.length_set, ← hlen3],
      List.pairwise_singleton _ _, ?_, ?_, ?_, ?_, ?_, ?_, ?_⟩
    · intro it hit
      rcases List.mem_singleton.mp hit with rfl
      exact lexLe_refl _
    · intro it hit
      rcases List.mem_singleton.mp hit with rfl
      exact ⟨hS, hSadj⟩
    · intro it hit
      rcases List.mem_singleton.mp hit with rfl
      exact ⟨[], IsPath.nil e.S, rfl⟩
    · intro it hit
      rcases List.mem_singleton.mp hit with rfl
      rw [show (⟨0, 0, e.S⟩ : PQItem).v.toNat = e.S.toNat from rfl, hlab1S]
      exact lexLe_refl _
    · intro n hn
      by_cases hne : n = e.S.toNat
      · subst hne
        right
        refine ⟨[], ?_, by rw [hlab1S]; rfl⟩
        rw [show ((e.S.toNat : Nat) : Int) = e.S from Int.toNat_of_nonneg hS]
        exact IsPath.nil e.S
      · left
        exact hlab1ne n hne
    · intro n
      by_cases hne : n = e.S.toNat
      · subst hne
        rw [hlab1S]
        exact Or.inl (by show (0 : Int) < INF; decide)
      · rw [hlab1ne n hne]
        exact lexLe_refl _
    · intro id ed he ha
      rw [hedges3] at he
      obtain ⟨hu0, -, -, -, -⟩ := hwf.1 id ed he
      by_cases hu : ed.u.toNat = e.S.toNat
      · right; right
        refine ⟨⟨0, 0, e.S⟩, List.mem_singleton.mpr rfl, ?_, ?_⟩
        · show e.S = ed.u
          omega
        · rw [hu, hlab1S]
          rfl
      · left
        exact hlab1ne _ hu
  have hopen_le : openCard (e.refillLabels.growToInclude e.S).g (0, 0)
      ((e.refillLabels.growToInclude e.S).dist.set e.S.toNat 0)
      ((e.refillLabels.growToInclude e.S).bestMax.set e.S.toNat 0) ≤
      (e.refillLabels.growToInclude e.S).g.edges.length := by
    unfold openCard
    calc _ ≤ (Finset.range
          (e.refillLabels.growToInclude e.S).g.edges.length).card :=
        Finset.card_filter_le _ _
      _ = _ := Finset.card_range _
  obtain ⟨dist2, bm2, heqd, hl1, hl2, hsound2, hinit2, hstab2, hmono2⟩ :=
    dijkstra_spec hwf3.1 hwf3.2.1 hadj3
      ((e.refillLabels.growToInclude e.S).g.edges.length + 1) (0, 0)
      [⟨0, 0, e.S⟩]
      ((e.refillLabels.growToInclude e.S).dist.set e.S.toNat 0)
      ((e.refillLabels.growToInclude e.S).bestMax.set e.S.toNat 0)
      hdinv
      (by
        have h1 : ([⟨0, 0, e.S⟩] : List PQItem).length = 1 := rfl
        omega)
  have hSle : lexLe (labD dist2 bm2 e.S.toNat) (0, 0) := by
    have h0 := hmono2 e.S.toNat
    rw [hlab1S] at h0
    exact h0
  refine ⟨{ e.refillLabels.growToInclude e.S with
      dist := dist2, bestMax := bm2, dirty := false }, ?_, hedges3, hbucket3,
    hS3, rfl, hwf3, ?_, ?_, ?_, hadjmono, ?_, ?_⟩
  · rw [recompute_def, if_pos hS, he1, heqd]
    rfl
  · show dist2.length = bm2.length
    rw [hl1, hl2]
  · show (e.refillLabels.growToInclude e.S).g.adj.length ≤ dist2.length
    omega
  · show e.dist.length ≤ dist2.length
    omega
  · show (e.refillLabels.growToInclude e.S).S.toNat < dist2.length
    rw [hS3]
    omega
  · intro n hn
    show OptimalAt (e.refillLabels.growToInclude e.S).g
      (e.refillLabels.growToInclude e.S).S n (labD dist2 bm2 n)
    rw [hS3]
    have hnL : n < (e.refillLabels.growToInclude e.S).dist.length := by
      have hn2 : n < dist2.length := hn
      omega
    refine ⟨hsound2 n hnL, hinit2 n, ?_⟩
    intro p hp
    exact label_le_pathKey hwf3.1 hSle hstab2 p (n : Int) hp

theorem getD_set_eq {α : Type} {l : List α} {i : Nat} (h : i < l.length)
    (x : α) (d : α) : (l.set i x).getD i d = x := by
  rw [List.getD_eq_getElem?_getD, List.getElem?_set_self h]
  rfl

theorem getD_set_ne {α : Type} {l : List α} {i j : Nat} (h : i ≠ j)
    (x : α) (d : α) : (l.set i x).getD j d = l.getD j d := by
  rw [List.getD_eq_getElem?_getD, List.getElem?_set_ne h,
    ← List.getD_eq_getElem?_getD]

theorem get?_append_split {α : Type} {l : List α} {x : α} {id : Nat} {y : α}
    (h : (l ++ [x]).get? id = some y) :
    (id < l.length ∧ l.get? id = some y) ∨ (id = l.length ∧ y = x) := by
  by_cases hlt : id < l.length
  · left
    rw [List.get?_append hlt] at h
    exact ⟨hlt, h⟩
  · right
    have hge : l.length ≤ id := by omega
    rw [List.get?_append_right hge] at h
    cases hk : id - l.length with
    | zero =>
      rw [hk] at h
      exact ⟨by omega, (Option.some.inj h).symm⟩
    | succ m =>
      rw [hk] at h
      simp at h

theorem adj_getD_ensure2 (g : DynamicDirectedGraph) (u v : Int) (n : Nat) :
    ((g.ensureNode u).ensureNode v).adj.getD n [] = g.adj.getD n [] := by
  rw [DynamicDirectedGraph.ensureNode_getD_adj,
    DynamicDirectedGraph.ensureNode_getD_adj]

theorem edges_ensure2 (g : DynamicDirectedGraph) (u v : Int) :
    ((g.ensureNode u).ensureNode v).edges = g.edges := by
  rw [DynamicDirectedGraph.ensureNode_edges, DynamicDirectedGraph.ensureNode_edges]

theorem addEdge_adj_length {g g' : DynamicDirectedGraph} {u v w : Int}
    {id : Nat} (hv : 0 ≤ v) (h : g.addEdge u v w = some (g', id)) :
    g'.adj.length = max (max g.adj.length (u.toNat + 1)) (v.toNat + 1) := by
  obtain ⟨hu, -, -, hadj, -⟩ := addEdge_elim h
  rw [hadj, List.length_set, ensureNode_length _ hv, ensureNode_length _ hu]

theorem edgesInv_addEdge {g g' : DynamicDirectedGraph} {u v w : Int}
    {id : Nat} (HE : EdgesInv g) (hv : 0 ≤ v) (hw : 0 ≤ w)
    (h : g.addEdge u v w = some (g', id)) : EdgesInv g' := by
  obtain ⟨hu, -, hedges, -, -⟩ := addEdge_elim h
  have hlen := addEdge_adj_length hv h
  intro j ed hj
  rw [hedges] at hj
  rcases get?_append_split hj with ⟨hlt, hold⟩ | ⟨-, rfl⟩
  · obtain ⟨h1, h2, h3, h4, h5⟩ := HE j ed hold
    refine ⟨h1, by rw [hlen]; show ed.u.toNat < _; omega, h3,
      by rw [hlen]; show ed.v.toNat < _; omega, h5⟩
  · refine ⟨hu, by rw [hlen]; show u.toNat < _; omega, hv,
      by rw [hlen]; show v.toNat < _; omega, hw⟩

theorem adjInv_addEdge {g g' : DynamicDirectedGraph} {u v w : Int}
    {id : Nat} (HA : AdjInv g) (h : g.addEdge u v w = some (g', id)) :
    AdjInv g' := by
  obtain ⟨hu, hid, hedges, hadj, -⟩ := addEdge_elim h
  have hucov : u.toNat < ((g.ensureNode u).ensureNode v).adj.length := by
    have h1 := DynamicDirectedGraph.ensureNode_covers g hu
    have h2 := DynamicDirectedGraph.length_le_ensureNode_adj (g.ensureNode u) v
    omega
  constructor
  · intro n j hj
    rw [hadj] at hj
    by_cases hn : n = u.toNat
    · subst hn
      rw [getD_set_eq hucov] at hj
      rcases List.mem_append.mp hj with hjold | hjnew
      · rw [adj_getD_ensure2] at hjold
        obtain ⟨ed, hed, hedu⟩ := HA.1 u.toNat j hjold
        have hjlt : j < g.edges.length := (List.get?_eq_some.mp hed).1
        refine ⟨ed, ?_, hedu⟩
        rw [hedges, List.get?_append hjlt]
        exact hed
      · have hj0 : j = g.edges.length := by simpa using hjnew
        subst hj0
        refine ⟨⟨u, v, w, true⟩, ?_, ?_⟩
        · rw [hedges, List.get?_concat_length]
        · show u = ((u.toNat : Nat) : Int)
          omega
    · rw [getD_set_ne (fun hh => hn hh.symm), adj_getD_ensure2] at hj
      obtain ⟨ed, hed, hedu⟩ := HA.1 n j hj
      have hjlt : j < g.edges.length := (List.get?_eq_some.mp hed).1
      refine ⟨ed, ?_, hedu⟩
      rw [hedges, List.get?_append hjlt]
      exact hed
  · intro j ed hj
    rw [hedges] at hj
    rcases get?_append_split hj with ⟨hlt, hold⟩ | ⟨hjeq, rfl⟩
    · have hmem := HA.2 j ed hold
      rw [hadj]
      by_cases hn : ed.u.toNat = u.toNat
      · rw [hn, getD_set_eq hucov]
        refine List.mem_append.mpr (Or.inl ?_)
        rw [adj_getD_ensure2, ← hn]
        exact hmem
      · rw [getD_set_ne (fun hh => hn hh.symm), adj_getD_ensure2]
        exact hmem
    · subst hjeq
      rw [hadj]
      have hred : (⟨u, v, w, true⟩ : Edge).u.toNat = u.toNat := rfl
      rw [hred, getD_set_eq hucov]
      exact List.mem_append.mpr (Or.inr (List.mem_singleton.mpr rfl))

theorem getD_resizeL_lt {l : List Int} {need n : Nat} (hl : l.length ≤ need)
    (hn : n < l.length) (v d : Int) :
    (resizeL l need v).getD n d = l.getD n d := by
  unfold resizeL
  rw [List.take_all_of_le hl, List.getD_eq_getElem?_getD,
    List.getElem?_append_left hn, ← List.getD_eq_getElem?_getD]

theorem getD_resizeL_ge {l : List Int} {need n : Nat} (hn : l.length ≤ n)
    (v : Int) : (resizeL l need v).getD n v = v := by
  unfold resizeL
  by_cases hl : l.length ≤ need
  · rw [List.take_all_of_le hl, List.getD_eq_getElem?_getD,
      List.getElem?_append_right hn, List.getElem?_replicate]
    split <;> rfl
  · have h1 : (l.take need).length ≤ n := by
      rw [List.length_take]
      omega
    rw [List.getD_eq_getElem?_getD, List.getElem?_append_right h1,
      List.getElem?_replicate]
    split <;> rfl

theorem growToInclude_labD_lt {e : LexiSSSP} {n : Nat}
    (hn : n < e.dist.length) (hlen : e.dist.length = e.bestMax.length)
    (x : Int) :
    labD (e.growToInclude x).dist (e.growToInclude x).bestMax n =
      labD e.dist e.bestMax n := by
  rw [LexiSSSP.growToInclude_def]
  split
  · rfl
  split
  case isTrue hlt =>
    show labD (resizeL e.dist (x.toNat + 1) INF)
      (resizeL e.bestMax (x.toNat + 1) INTMAX) n = _
    unfold labD
    rw [getD_resizeL_lt (by omega) hn, getD_resizeL_lt (by omega) (by omega)]
  · rfl

theorem growToInclude_labD_ge {e : LexiSSSP} {n : Nat}
    (hn : e.dist.length ≤ n) (hlen : e.dist.length = e.bestMax.length)
    (x : Int) :
    labD (e.growToInclude x).dist (e.growToInclude x).bestMax n = initLab := by
  rw [LexiSSSP.growToInclude_def]
  split
  · unfold labD
    rw [List.getD_eq_default _ _ hn, List.getD_eq_default _ _ (by omega)]
    rfl
  split
  · show labD (resizeL e.dist (x.toNat + 1) INF)
      (resizeL e.bestMax (x.toNat + 1) INTMAX) n = _
    unfold labD
    rw [getD_resizeL_ge hn, getD_resizeL_ge (by omega)]
    rfl
  · show labD e.dist e.bestMax n = initLab
    unfold labD
    rw [List.getD_eq_default _ _ hn, List.getD_eq_default _ _ (by omega)]
    rfl

theorem optimalAt_fresh {g : DynamicDirectedGraph} {S : Int} (HE : EdgesInv g)
    {D n : Nat} (hS : S.toNat < D) (hS0 : 0 ≤ S) (hadj : g.adj.length ≤ D)
    (hn : D ≤ n) : OptimalAt g S n initLab := by
  have hnop : ∀ p, ¬ IsPath g S (n : Int) p := by
    intro p hp
    rcases isPath_target_lt HE hp with ⟨-, hst⟩ | ⟨-, hlt⟩
    · have h1 : S.toNat = n := by
        rw [hst]
        rfl
      omega
    · have h1 : n < g.adj.length := by
        have h2 : ((n : Int)).toNat = n := rfl
        omega
      omega
  exact ⟨Or.inl rfl, lexLe_refl _, fun p hp => absurd hp (hnop p)⟩

theorem goodEngine_growToInclude {e : LexiSSSP} (hG : GoodEngine e)
    (x : Int) : GoodEngine (e.growToInclude x) := by
  obtain ⟨hwf, hlen, hadj, hclean⟩ := hG
  by_cases hx : 0 ≤ x
  case neg =>
    rw [LexiSSSP.growToInclude_eq_self e (Or.inl (by omega))]
    exact ⟨hwf, hlen, hadj, hclean⟩
  case pos =>
    refine ⟨?_, growToInclude_lengths_eq hlen x,
      growToInclude_adj_le_dist hadj x, ?_⟩
    · rw [growToInclude_g e hx]
      exact wfg_ensureNode hwf x
    · intro hd
      rw [LexiSSSP.growToInclude_dirty] at hd
      obtain ⟨hS0, hSlt, hopt⟩ := hclean hd
      have hmono := LexiSSSP.length_le_growToInclude_dist e x
      refine ⟨by rw [LexiSSSP.growToInclude_S]; exact hS0,
        by rw [LexiSSSP.growToInclude_S]; omega, ?_⟩
      intro n hn
      rw [LexiSSSP.growToInclude_S]
      by_cases hold : n < e.dist.length
      · rw [growToInclude_labD_lt hold hlen]
        exact optimalAt_congr_edges (LexiSSSP.growToInclude_edges e x).symm
          (hopt n hold)
      · rw [growToInclude_labD_ge (by omega) hlen]
        exact optimalAt_congr_edges (LexiSSSP.growToInclude_edges e x).symm
          (optimalAt_fresh hwf.1 hSlt hS0 hadj (by omega))

/-! ### Engine preservation across commands -/
theorem pathSum_nonneg_of_isPath {g : DynamicDirectedGraph} (HE : EdgesInv g)
    {s t : Int} {p : List Nat} (hp : IsPath g s t p) : 0 ≤ pathSum g p := by
  induction hp with
  | nil s => exact le_rfl
  | cons he ha hu htail ih =>
    rename_i u t' id e q
    obtain ⟨-, -, -, -, hw⟩ := HE id e he
    have h1 : pathSum g (id :: q) = pathWt g id + pathSum g q := by
      unfold pathSum
      rw [List.map_cons, List.sum_cons]
    rw [h1, pathWt_eq he]
    omega

theorem pathWt_of_append {g g' : DynamicDirectedGraph} {l : List Edge}
    (hE : g'.edges = g.edges ++ l) {id : Nat} (hid : id < g.edges.length) :
    pathWt g' id = pathWt g id := by
  unfold pathWt
  rw [hE, List.get?_append hid]

theorem isPath_of_append {g g' : DynamicDirectedGraph} {l : List Edge}
    (hE : g'.edges = g.edges ++ l) {s t : Int} {p : List Nat}
    (hp : IsPath g s t p) : IsPath g' s t p := by
  induction hp with
  | nil s => exact IsPath.nil s
  | cons he ha hu htail ih =>
    refine IsPath.cons ?_ ha hu ih
    rw [hE, List.get?_append (List.get?_eq_some.mp he).1]
    exact he

theorem isPath_ids_lt {g : DynamicDirectedGraph} {s t : Int} {p : List Nat}
    (hp : IsPath g s t p) : ∀ id ∈ p, id < g.edges.length := by
  induction hp with
  | nil s => exact fun id h => absurd h (List.not_mem_nil id)
  | cons he ha hu htail ih =>
    intro id h
    rcases List.mem_cons.mp h with rfl | h2
    · exact (List.get?_eq_some.mp he).1
    · exact ih id h2

theorem map_pathWt_of_append {g g' : DynamicDirectedGraph} {l : List Edge}
    (hE : g'.edges = g.edges ++ l) :
    ∀ p : List Nat, (∀ id ∈ p, id < g.edges.length) →
      p.map (pathWt g') = p.map (pathWt g)
  | [], _ => rfl
  | a :: p, h => by
    rw [List.map_cons, List.map_cons,
      pathWt_of_append hE (h a (List.mem_cons_self a p)),
      map_pathWt_of_append hE p (fun id hid => h id (List.mem_cons_of_mem a hid))]

theorem pathKey_of_append {g g' : DynamicDirectedGraph} {l : List Edge}
    (hE : g'.edges = g.edges ++ l) {s t : Int} {p : List Nat}
    (hp : IsPath g s t p) : pathKey g' p = pathKey g p := by
  unfold pathKey pathSum pathMax
  rw [map_pathWt_of_append hE p (isPath_ids_lt hp)]

theorem lexLe_fst_le {a b : Int × Int} (h : lexLe a b) : a.1 ≤ b.1 := by
  rcases h with h | ⟨h1, -⟩
  · omega
  · omega

theorem optimal_reached {g : DynamicDirectedGraph} {S : Int} {n : Nat}
    {lab : Int × Int} (hopt : OptimalAt g S n lab)
    (hfin : lab.1 < INF) :
    ∃ p, IsPath g S (n : Int) p ∧ pathKey g p = lab := by
  rcases hopt.1 with h | h
  · rw [h] at hfin
    exact absurd hfin (lt_irrefl INF)
  · exact h

theorem addEdgeCmd_def (e : LexiSSSP) (u v w : Int) :
    e.addEdgeCmd u v w = (e.g.addEdge u v w).map fun gp =>
      { ({ e with g := gp.1 } : LexiSSSP).growToInclude (max u v) with
        dirty := true } := rfl

theorem goodEngine_addEdgeCmd {e : LexiSSSP} (hG : GoodEngine e)
    {u v w : Int} (hu : 0 ≤ u) (hv : 0 ≤ v) (hw : 0 ≤ w) :
    ∃ e', e.addEdgeCmd u v w = some e' ∧ GoodEngine e' ∧
      e'.S = e.S ∧ e'.dirty = true ∧
      e'.g.edges = e.g.edges ++ [⟨u, v, w, true⟩] := by
  obtain ⟨hwf, hlen, hadj, -⟩ := hG
  cases haddE : e.g.addEdge u v w with
  | none =>
    rw [addEdge_def, if_neg (by omega)] at haddE
    exact absurd haddE (by simp)
  | some gp =>
    obtain ⟨g', id⟩ := gp
    have hE' : WFG g' := ⟨edgesInv_addEdge hwf.1 hv hw haddE,
      adjInv_addEdge hwf.2.1 haddE, bucketInv_addEdge hwf.2.2 haddE⟩
    have hm : (0 : Int) ≤ max u v := le_trans hu (le_max_left u v)
    have hmu : u.toNat ≤ (max u v).toNat := Int.toNat_le_toNat (le_max_left u v)
    have hmv : v.toNat ≤ (max u v).toNat := Int.toNat_le_toNat (le_max_right u v)
    refine ⟨_, by rw [addEdgeCmd_def, haddE]; rfl, ⟨?_, ?_, ?_, ?_⟩, ?_, rfl, ?_⟩
    · show WFG (({ e with g := g' } : LexiSSSP).growToInclude (max u v)).g
      rw [growToInclude_g _ hm]
      exact wfg_ensureNode hE' (max u v)
    · show (({ e with g := g' } : LexiSSSP).growToInclude (max u v)).dist.length =
        (({ e with g := g' } : LexiSSSP).growToInclude (max u v)).bestMax.length
      have hlen2 : ({ e with g := g' } : LexiSSSP).dist.length =
          ({ e with g := g' } : LexiSSSP).bestMax.length := hlen
      exact growToInclude_lengths_eq hlen2 (max u v)
    · show (({ e with g := g' } : LexiSSSP).growToInclude (max u v)).g.adj.length ≤
        (({ e with g := g' } : LexiSSSP).growToInclude (max u v)).dist.length
      have h1 := growToInclude_gadj_length ({ e with g := g' } : LexiSSSP) hm
      have h2 := growToInclude_dist_length ({ e with g := g' } : LexiSSSP) hm
      have h3 : ({ e with g := g' } : LexiSSSP).g.adj.length =
          max (max e.g.adj.length (u.toNat + 1)) (v.toNat + 1) :=
        addEdge_adj_length hv haddE
      have h4 : ({ e with g := g' } : LexiSSSP).dist.length = e.dist.length := rfl
      omega
    · intro hd
      exact absurd hd (by exact fun h => Bool.noConfusion h)
    · show (({ e with g := g' } : LexiSSSP).growToInclude (max u v)).S = e.S
      rw [LexiSSSP.growToInclude_S]
    · show (({ e with g := g' } : LexiSSSP).growToInclude (max u v)).g.edges = _
      rw [LexiSSSP.growToInclude_edges]
      exact (addEdge_elim haddE).2.2.1

theorem edgesInv_set_dead {g g2 : DynamicDirectedGraph} (HE : EdgesInv g)
    {id : Nat} {ed : Edge} (he : g.edges.get? id = some ed)
    (h2 : g2.edges = g.edges.set id { ed with alive := false })
    (ha : g2.adj = g.adj) : EdgesInv g2 := by
  intro j f hj
  rw [h2] at hj
  rw [ha]
  by_cases hij : id = j
  · subst hij
    have hlt : id < g.edges.length := (List.get?_eq_some.mp he).1
    rw [List.get?_set_eq_of_lt _ hlt] at hj
    have hf : f = { ed with alive := false } := (Option.some.inj hj).symm
    subst hf
    exact HE id ed he
  · rw [List.get?_set_ne _ _ hij] at hj
    exact HE j f hj

theorem adjInv_set_dead {g g2 : DynamicDirectedGraph} (HA : AdjInv g)
    {id : Nat} {ed : Edge} (he : g.edges.get? id = some ed)
    (h2 : g2.edges = g.edges.set id { ed with alive := false })
    (ha : g2.adj = g.adj) : AdjInv g2 := by
  constructor
  · intro m j hj
    rw [ha] at hj
    obtain ⟨f, hf, hfu⟩ := HA.1 m j hj
    by_cases hij : id = j
    · subst hij
      have hfe : f = ed := by
        rw [hf] at he
        exact Option.some.inj he
      refine ⟨{ ed with alive := false }, ?_, ?_⟩
      · rw [h2, List.get?_set_eq_of_lt _ (List.get?_eq_some.mp he).1]
      · show ed.u = (m : Int)
        rw [← hfe]
        exact hfu
    · refine ⟨f, ?_, hfu⟩
      rw [h2, List.get?_set_ne _ _ hij]
      exact hf
  · intro j f hj
    rw [h2] at hj
    rw [ha]
    by_cases hij : id = j
    · subst hij
      have hlt : id < g.edges.length := (List.get?_eq_some.mp he).1
      rw [List.get?_set_eq_of_lt _ hlt] at hj
      have hf : f = { ed with alive := false } := (Option.some.inj hj).symm
      subst hf
      exact HA.2 id ed he
    · rw [List.get?_set_ne _ _ hij] at hj
      exact HA.2 j f hj

theorem goodEngine_removeEdgeCmd {e : LexiSSSP} (hG : GoodEngine e)
    (u v w : Int) : GoodEngine (e.removeEdgeCmd u v w) ∧
      (e.removeEdgeCmd u v w).S = e.S := by
  obtain ⟨hwf, hlen, hadj, hclean⟩ := hG
  cases hlast : (e.g.bucket (u, v, w)).getLast? with
  | none =>
    have hnone : e.g.removeEdge u v w = (e.g, false) := by
      unfold DynamicDirectedGraph.removeEdge
      rw [hlast]
    rw [removeEdgeCmd_def, hnone]
    exact ⟨⟨hwf, hlen, hadj, hclean⟩, rfl⟩
  | some id =>
    have hmem : id ∈ bucketSpec e.g (u, v, w) := by
      rw [← hwf.2.2 (u, v, w)]
      exact List.mem_of_mem_getLast? hlast
    obtain ⟨ed, he, hal, hk⟩ := mem_bucketSpec.mp hmem
    obtain ⟨hsnd, hedges, hadj2, -⟩ := removeEdge_elim hlast he
    have hdirty : (e.removeEdgeCmd u v w).dirty = true := by
      show (if (e.g.removeEdge u v w).2 then true else e.dirty) = true
      rw [hsnd]
      rfl
    refine ⟨⟨⟨?_, ?_, ?_⟩, hlen, ?_, ?_⟩, rfl⟩
    · exact edgesInv_set_dead hwf.1 he hedges hadj2
    · exact adjInv_set_dead hwf.2.1 he hedges hadj2
    · exact bucketInv_removeEdge u v w hwf.2.2
    · show (e.g.removeEdge u v w).1.adj.length ≤ e.dist.length
      rw [hadj2]
      exact hadj
    · intro hd
      rw [hdirty] at hd
      exact absurd hd (by exact fun h => Bool.noConfusion h)

theorem recompute_elim {e e' : LexiSSSP} (hwf : WFG e.g)
    (hlen : e.dist.length = e.bestMax.length)
    (hadj : e.g.adj.length ≤ e.dist.length)
    (h : e.recompute = some e') :
    e'.g.edges = e.g.edges ∧ e'.g.bucket = e.g.bucket ∧ e'.S = e.S ∧
    e'.dirty = false ∧ WFG e'.g ∧ e'.dist.length = e'.bestMax.length ∧
    e'.g.adj.length ≤ e'.dist.length ∧ e.dist.length ≤ e'.dist.length ∧
    e.g.adj.length ≤ e'.g.adj.length ∧
    e'.S.toNat < e'.dist.length ∧
    (∀ n, n < e'.dist.length →
      OptimalAt e'.g e'.S n (labD e'.dist e'.bestMax n)) := by
  obtain ⟨-, -, hS, -⟩ := LexiSSSP.recompute_struct h
  obtain ⟨e2, h2, rest⟩ := recompute_spec hwf hlen hadj hS
  rw [h] at h2
  have he : e2 = e' := (Option.some.inj h2).symm
  subst he
  exact rest

theorem ask_elim {e e' : LexiSSSP} {t r : Int} (hG : GoodEngine e)
    (h : e.ask t = some (e', r)) :
    GoodEngine e' ∧ e'.dirty = false ∧ e'.S = e.S ∧
    e'.g.edges = e.g.edges ∧ e'.g.bucket = e.g.bucket ∧
    0 ≤ t ∧ t.toNat < e'.dist.length ∧
    OptimalAt e'.g e'.S t.toNat (labD e'.dist e'.bestMax t.toNat) ∧
    r = (if (labD e'.dist e'.bestMax t.toNat).1 = INF then -1
         else (labD e'.dist e'.bestMax t.toNat).2) := by
  obtain ⟨ht, hlt, hr, hcase⟩ := LexiSSSP.ask_cases h
  obtain ⟨hg1, hl1, ha1, hc1⟩ := goodEngine_growToInclude hG t
  have hrfm : ∀ h1 : t.toNat < e'.dist.length, ∀ h2 : t.toNat < e'.bestMax.length,
      r = (if (labD e'.dist e'.bestMax t.toNat).1 = INF then -1
           else (labD e'.dist e'.bestMax t.toNat).2) := by
    intro h1 h2
    have hld := labD_eq_getD_zero h1 h2
    have hf : e'.dist.getD t.toNat 0 = (labD e'.dist e'.bestMax t.toNat).1 :=
      congrArg Prod.fst hld
    have hs : e'.bestMax.getD t.toNat 0 = (labD e'.dist e'.bestMax t.toNat).2 :=
      congrArg Prod.snd hld
    rw [hr, hf, hs]
  rcases hcase with ⟨hd, hrec⟩ | ⟨hd, rfl⟩
  · obtain ⟨hedges, hbucket, hS, hdirty, hwf', hlen', hadj', hmono, hamono,
      hScov, hopt⟩ := recompute_elim hg1 hl1 ha1 hrec
    have hS0 : 0 ≤ (e.growToInclude t).S := (LexiSSSP.recompute_struct hrec).2.2.1
    refine ⟨⟨hwf', hlen', hadj', fun _ => ⟨by rw [hS]; exact hS0, hScov, hopt⟩⟩,
      hdirty, ?_, ?_, ?_, ht, hlt, hopt t.toNat hlt, hrfm hlt (by omega)⟩
    · rw [hS, LexiSSSP.growToInclude_S]
    · rw [hedges, LexiSSSP.growToInclude_edges]
    · rw [hbucket, LexiSSSP.growToInclude_bucket]
  · refine ⟨⟨hg1, hl1, ha1, hc1⟩, hd, LexiSSSP.growToInclude_S e t,
      LexiSSSP.growToInclude_edges e t, LexiSSSP.growToInclude_bucket e t,
      ht, hlt, (hc1 hd).2.2 t.toNat hlt, hrfm hlt (by omega)⟩

theorem ask_total {e : LexiSSSP} (hG : GoodEngine e) {t : Int} (ht : 0 ≤ t)
    (hS : 0 ≤ e.S) : ∃ e' r, e.ask t = some (e', r) := by
  have hcov := LexiSSSP.growToInclude_dist_covers e ht
  obtain ⟨hg1, hl1, ha1, -⟩ := goodEngine_growToInclude hG t
  rw [LexiSSSP.ask_def]
  by_cases hd : (e.growToInclude t).dirty
  · obtain ⟨e2, hrec, -, -, -, -, -, -, -, hmono, -, -, -⟩ :=
      recompute_spec hg1 hl1 ha1 (by rw [LexiSSSP.growToInclude_S]; exact hS)
    rw [if_pos hd, hrec, Option.some_bind, if_pos ⟨ht, by omega⟩]
    exact ⟨_, _, rfl⟩
  · rw [if_neg hd, Option.some_bind, if_pos ⟨ht, by omega⟩]
    exact ⟨_, _, rfl⟩

theorem goodEngine_mk (n S : Int) : GoodEngine (mkLexiSSSP (mkGraph n) S) := by
  refine ⟨⟨?_, ⟨?_, ?_⟩, ?_⟩, ?_, ?_, ?_⟩
  · intro id f he
    exact absurd (List.get?_mem he) (List.not_mem_nil f)
  · intro m id hid
    have hrep : (mkLexiSSSP (mkGraph n) S).g.adj.getD m [] = [] := by
      show (List.replicate (n + 1).toNat ([] : List Nat)).getD m [] = []
      rcases Nat.lt_or_ge m (n + 1).toNat with hm | hm
      · rw [List.getD_eq_getElem?_getD, List.getElem?_replicate, if_pos hm]
        rfl
      · rw [List.getD_eq_default]
        rw [List.length_replicate]
        omega
    rw [hrep] at hid
    exact absurd hid (List.not_mem_nil id)
  · intro id f he
    exact absurd (List.get?_mem he) (List.not_mem_nil f)
  · intro k
    rfl
  · show (List.replicate ((mkGraph n).nodeCapacity + 1).toNat INF).length =
      (List.replicate ((mkGraph n).nodeCapacity + 1).toNat INTMAX).length
    rw [List.length_replicate, List.length_replicate]
  · show (mkGraph n).adj.length ≤
      (List.replicate ((mkGraph n).nodeCapacity + 1).toNat INF).length
    rw [List.length_replicate]
    show (List.replicate (n + 1).toNat ([] : List Nat)).length ≤ _
    unfold DynamicDirectedGraph.nodeCapacity
    show _ ≤ (((mkGraph n).adj.length : Int) - 1 + 1).toNat
    show _ ≤ (((List.replicate (n + 1).toNat ([] : List Nat)).length : Int) - 1 + 1).toNat
    rw [List.length_replicate]
    omega
  · intro hd
    exact absurd hd (by exact fun h => Bool.noConfusion h)

theorem goodEngine_execCmd {e e' : LexiSSSP} (hG : GoodEngine e) {c : Cmd}
    (hok : c.ok) (h : execCmd e c = some e') :
    GoodEngine e' ∧ e'.S = e.S := by
  cases c with
  | add u v w =>
    obtain ⟨hu, hv, hw⟩ := hok
    obtain ⟨e2, he2, hG2, hS2, -, -⟩ := goodEngine_addEdgeCmd hG hu hv hw
    have h' : e.addEdgeCmd u v w = some e' := h
    rw [h'] at he2
    have : e2 = e' := (Option.some.inj he2).symm
    subst this
    exact ⟨hG2, hS2⟩
  | rem u v w =>
    have hrm := goodEngine_removeEdgeCmd hG u v w
    have h' : some (e.removeEdgeCmd u v w) = some e' := h
    have he : e.removeEdgeCmd u v w = e' := Option.some.inj h'
    rw [← he]
    exact hrm
  | query t =>
    have h' : (e.ask t).map (fun r => r.1) = some e' := h
    rcases Option.map_eq_some'.mp h' with ⟨⟨e2, r⟩, hask, hfst⟩
    obtain ⟨hG2, -, hS2, -, -, -, -, -, -⟩ := ask_elim hG hask
    have : e2 = e' := hfst
    subst this
    exact ⟨hG2, hS2⟩

theorem goodEngine_execCmds {cs : List Cmd} :
    ∀ {e e' : LexiSSSP}, GoodEngine e → (∀ c ∈ cs, c.ok) →
      execCmds e cs = some e' → GoodEngine e' ∧ e'.S = e.S := by
  induction cs with
  | nil =>
    intro e e' hG _ h
    have : e = e' := Option.some.inj h
    subst this
    exact ⟨hG, rfl⟩
  | cons c cs ih =>
    intro e e' hG hok h
    have h' : (execCmd e c).bind (fun e1 => execCmds e1 cs) = some e' := h
    rcases Option.bind_eq_some.mp h' with ⟨e1, h1, h2⟩
    obtain ⟨hG1, hS1⟩ := goodEngine_execCmd hG (hok c (List.mem_cons_self c cs)) h1
    obtain ⟨hG', hS'⟩ := ih hG1 (fun d hd => hok d (List.mem_cons_of_mem c hd)) h2
    exact ⟨hG', by rw [hS', hS1]⟩

theorem reach_goodEngine {n S : Int} {cs : List Cmd} {e : LexiSSSP}
    (hre : Reach n S cs e) (hok : ∀ c ∈ cs, c.ok) :
    GoodEngine e ∧ e.S = S :=
  goodEngine_execCmds (goodEngine_mk n S) hok hre

/-! ### Claim theorems -/
/-- C1: On every engine state reached by well-formed commands from a fresh
engine, `ask t` succeeds and — whenever `t` is reachable by a path whose total
weight stays below `INF` — reports the minimum achievable maximum-edge-weight
among exactly the paths of minimal total weight from the source to `t`; and
the relaxation of `recompute` accepts a candidate label if and only if it is
lexicographically smaller (sum first, bottleneck second) than the current one. -/
theorem lexi_ask_lexicographic_optimal {n S : Int} {cs : List Cmd} {e : LexiSSSP}
    (hre : Reach n S cs e) (hok : ∀ c ∈ cs, Cmd.ok c) (hS : 0 ≤ S) {t : Int}
    (ht : 0 ≤ t) :
    (∃ e' r, e.ask t = some (e', r) ∧
      ∀ p0, IsPath e'.g S t p0 → pathSum e'.g p0 < INF →
        ∃ pm, IsPath e'.g S t pm ∧ r = pathMax e'.g pm ∧
          (∀ q, IsPath e'.g S t q → pathSum e'.g pm ≤ pathSum e'.g q) ∧
          (∀ q, IsPath e'.g S t q → pathSum e'.g q = pathSum e'.g pm →
            pathMax e'.g pm ≤ pathMax e'.g q)) ∧
    (∀ dv bv nd nb : Int, accepts dv bv nd nb ↔ lexLt (nd, nb) (dv, bv)) := by
  obtain ⟨hG, hSe⟩ := reach_goodEngine hre hok
  have hS0 : 0 ≤ e.S := by rw [hSe]; exact hS
  obtain ⟨e', r, hask⟩ := ask_total hG ht hS0
  obtain ⟨hG', -, hS', -, -, -, hlt, hopt, hr⟩ := ask_elim hG hask
  refine ⟨⟨e', r, hask, ?_⟩, fun dv bv nd nb => accepts_iff_lexLt⟩
  intro p0 hp0 hsum0
  have hcast : ((t.toNat : Int)) = t := Int.toNat_of_nonneg ht
  have hSS : e'.S = S := by rw [hS', hSe]
  have hp0' : IsPath e'.g e'.S ((t.toNat : Int)) p0 := by
    rw [hSS, hcast]
    exact hp0
  have hub0 : (labD e'.dist e'.bestMax t.toNat).1 ≤ pathSum e'.g p0 :=
    lexLe_fst_le (hopt.2.2 p0 hp0')
  have hfin : (labD e'.dist e'.bestMax t.toNat).1 < INF := by omega
  obtain ⟨pm, hpm, hkey⟩ := optimal_reached hopt hfin
  have hpm' : IsPath e'.g S t pm := by
    rw [← hSS, ← hcast]
    exact hpm
  have hA : pathSum e'.g pm = (labD e'.dist e'.bestMax t.toNat).1 :=
    congrArg Prod.fst hkey
  have hB : pathMax e'.g pm = (labD e'.dist e'.bestMax t.toNat).2 :=
    congrArg Prod.snd hkey
  refine ⟨pm, hpm', ?_, ?_, ?_⟩
  · rw [hr, if_neg (by omega)]
    exact hB.symm
  · intro q hq
    have hq' : IsPath e'.g e'.S ((t.toNat : Int)) q := by
      rw [hSS, hcast]
      exact hq
    have h3 : (labD e'.dist e'.bestMax t.toNat).1 ≤ pathSum e'.g q :=
      lexLe_fst_le (hopt.2.2 q hq')
    omega
  · intro q hq hqsum
    have hq' : IsPath e'.g e'.S ((t.toNat : Int)) q := by
      rw [hSS, hcast]
      exact hq
    rcases hopt.2.2 q hq' with hlt' | ⟨-, h2⟩
    · have hlt2 : (labD e'.dist e'.bestMax t.toNat).1 < pathSum e'.g q := hlt'
      omega
    · have h2' : (labD e'.dist e'.bestMax t.toNat).2 ≤ pathMax e'.g q := h2
      omega

theorem lexi_ask_lexicographic_optimal_witness :
    (∃ e' r, (mkLexiSSSP (mkGraph 0) 0).ask 0 = some (e', r) ∧
      ∀ p0, IsPath e'.g 0 0 p0 → pathSum e'.g p0 < INF →
        ∃ pm, IsPath e'.g 0 0 pm ∧ r = pathMax e'.g pm ∧
          (∀ q, IsPath e'.g 0 0 q → pathSum e'.g pm ≤ pathSum e'.g q) ∧
          (∀ q, IsPath e'.g 0 0 q → pathSum e'.g q = pathSum e'.g pm →
            pathMax e'.g pm ≤ pathMax e'.g q)) ∧
    (∀ dv bv nd nb : Int, accepts dv bv nd nb ↔ lexLt (nd, nb) (dv, bv)) :=
  lexi_ask_lexicographic_optimal
    (show Reach 0 0 [] (mkLexiSSSP (mkGraph 0) 0) from rfl)
    (fun c hc => absurd hc (List.not_mem_nil c)) (by decide) (by decide)

/-- C2 corrected: The true half of the claim: the cached distance
(label first component) to any target never increases across an
`addEdgeCmd` with non-negative endpoints and weight. The bottleneck half is
refuted separately. -/
theorem addEdgeCmd_never_increases_distance {n S : Int} {cs : List Cmd}
    {e : LexiSSSP} (hre : Reach n S cs e) (hok : ∀ c ∈ cs, Cmd.ok c)
    {t u v w : Int} (hu : 0 ≤ u) (hv : 0 ≤ v) (hw : 0 ≤ w)
    {e1 : LexiSSSP} {r1 : Int} (h1 : e.ask t = some (e1, r1))
    {e2 : LexiSSSP} (h2 : e1.addEdgeCmd u v w = some e2)
    {e3 : LexiSSSP} {r3 : Int} (h3 : e2.ask t = some (e3, r3)) :
    (labD e3.dist e3.bestMax t.toNat).1 ≤ (labD e1.dist e1.bestMax t.toNat).1 := by
  obtain ⟨hG, -⟩ := reach_goodEngine hre hok
  obtain ⟨hG1, -, -, -, -, -, hlt1, hopt1, -⟩ := ask_elim hG h1
  obtain ⟨e2', h2', hG2, hS2, -, hedges2⟩ := goodEngine_addEdgeCmd hG1 hu hv hw
  rw [h2] at h2'
  have he2 : e2' = e2 := (Option.some.inj h2').symm
  subst he2
  obtain ⟨-, -, hS3, hedges3, -, -, hlt3, hopt3, -⟩ := ask_elim hG2 h3
  have hE : e3.g.edges = e1.g.edges ++ [⟨u, v, w, true⟩] := by
    rw [hedges3, hedges2]
  rcases hopt1.1 with hinit | ⟨p, hp, hk⟩
  · have hle : (labD e3.dist e3.bestMax t.toNat).1 ≤ INF :=
      lexLe_fst_le hopt3.2.1
    have h4 : (labD e1.dist e1.bestMax t.toNat).1 = INF := by
      rw [hinit]
      rfl
    omega
  · have hp3 : IsPath e3.g e3.S ((t.toNat : Int)) p := by
      rw [hS3, hS2]
      exact isPath_of_append hE hp
    have hub : (labD e3.dist e3.bestMax t.toNat).1 ≤ (pathKey e3.g p).1 :=
      lexLe_fst_le (hopt3.2.2 p hp3)
    have h6 : (pathKey e3.g p).1 = (pathKey e1.g p).1 :=
      congrArg Prod.fst (pathKey_of_append hE hp)
    have h7 : (pathKey e1.g p).1 = (labD e1.dist e1.bestMax t.toNat).1 :=
      congrArg Prod.fst hk
    omega

theorem addEdgeCmd_never_increases_distance_witness :
    (labD (stepAsk (stepAdd (stepAsk (mkLexiSSSP (mkGraph 2) 1) 2) 1 2 5) 2).dist
       (stepAsk (stepAdd (stepAsk (mkLexiSSSP (mkGraph 2) 1) 2) 1 2 5) 2).bestMax
       2).1 ≤
    (labD (stepAsk (mkLexiSSSP (mkGraph 2) 1) 2).dist
       (stepAsk (mkLexiSSSP (mkGraph 2) 1) 2).bestMax 2).1 :=
  addEdgeCmd_never_increases_distance
    (show Reach 2 1 [] (mkLexiSSSP (mkGraph 2) 1) from rfl)
    (fun c hc => absurd hc (List.not_mem_nil c))
    (by decide) (by decide) (by decide)
    (show (mkLexiSSSP (mkGraph 2) 1).ask 2 =
        some (stepAsk (mkLexiSSSP (mkGraph 2) 1) 2, -1) from rfl)
    (show (stepAsk (mkLexiSSSP (mkGraph 2) 1) 2).addEdgeCmd 1 2 5 =
        some (stepAdd (stepAsk (mkLexiSSSP (mkGraph 2) 1) 2) 1 2 5) from rfl)
    (show (stepAdd (stepAsk (mkLexiSSSP (mkGraph 2) 1) 2) 1 2 5).ask 2 =
        some (stepAsk (stepAdd (stepAsk (mkLexiSSSP (mkGraph 2) 1) 2) 1 2 5) 2, 5)
      from rfl)

/-- C4 corrected: The true half of the claim: `outEdges` is total and
returns the empty sequence on every negative or out-of-range node id. The
`ask` half is refuted separately: a negative argument is an out-of-bounds
vector read (undefined behaviour), not the `-1` sentinel. -/
theorem outEdges_out_of_range_empty {g : DynamicDirectedGraph} {x : Int}
    (hx : x < 0 ∨ g.adj.length ≤ x.toNat) : g.outEdges x = [] := by
  unfold DynamicDirectedGraph.outEdges
  rw [if_neg]
  rintro ⟨h1, h2⟩
  rcases hx with h | h
  · omega
  · omega

theorem outEdges_out_of_range_empty_witness :
    ((-1 : Int) < 0 ∨ (mkGraph 3).adj.length ≤ (-1 : Int).toNat) ∧
      (mkGraph 3).outEdges (-1) = [] :=
  ⟨Or.inl (by decide), outEdges_out_of_range_empty (Or.inl (by decide))⟩

/-- C4 counterexample: `ask(-1)` is undefined behaviour (an out-of-bounds
`dist_` read), not the `-1` sentinel the spec promises. -/
theorem ask_negative_id_not_sentinel :
    askVal (mkLexiSSSP (mkGraph 3) 1) (-1) = none ∧
    ¬ askVal (mkLexiSSSP (mkGraph 3) 1) (-1) = some (-1) :=
  ⟨rfl, by decide⟩

/-- C7: On every reachable engine state whose path weights stay below
`INF`, `ask t` succeeds and returns `-1` exactly when no path of alive edges
leads from the source to `t`; any other return value is a non-negative
bottleneck. -/
theorem ask_minus_one_iff_unreachable {n S : Int} {cs : List Cmd} {e : LexiSSSP}
    (hre : Reach n S cs e) (hok : ∀ c ∈ cs, Cmd.ok c) (hS : 0 ≤ S) {t : Int}
    (ht : 0 ≤ t)
    (hsum : ∀ p, IsPath e.g S t p → pathSum e.g p < INF) :
    ∃ e' r, e.ask t = some (e', r) ∧
      (r = -1 ↔ ¬ ∃ p, IsPath e.g S t p) ∧ (r = -1 ∨ 0 ≤ r) := by
  obtain ⟨hG, hSe⟩ := reach_goodEngine hre hok
  have hS0 : 0 ≤ e.S := by rw [hSe]; exact hS
  obtain ⟨e', r, hask⟩ := ask_total hG ht hS0
  obtain ⟨hG', -, hS', hedges, -, -, hlt, hopt, hr⟩ := ask_elim hG hask
  have hcast : ((t.toNat : Int)) = t := Int.toNat_of_nonneg ht
  have hSS : e'.S = S := by rw [hS', hSe]
  refine ⟨e', r, hask, ⟨?_, ?_⟩, ?_⟩
  · intro hr1
    rintro ⟨p, hp⟩
    have hp' : IsPath e'.g e'.S ((t.toNat : Int)) p := by
      rw [hSS, hcast]
      exact isPath_congr_edges hedges.symm hp
    have hub : (labD e'.dist e'.bestMax t.toNat).1 ≤ pathSum e'.g p :=
      lexLe_fst_le (hopt.2.2 p hp')
    have hps : pathSum e'.g p = pathSum e.g p :=
      congrArg Prod.fst (pathKey_congr_edges hedges p)
    have hfinual := hsum p hp
    by_cases hfin : (labD e'.dist e'.bestMax t.toNat).1 = INF
    · omega
    · have hle : (labD e'.dist e'.bestMax t.toNat).1 ≤ INF :=
        lexLe_fst_le hopt.2.1
      have hflt : (labD e'.dist e'.bestMax t.toNat).1 < INF :=
        lt_of_le_of_ne hle hfin
      obtain ⟨pm, -, hkey⟩ := optimal_reached hopt hflt
      have hB : pathMax e'.g pm = (labD e'.dist e'.bestMax t.toNat).2 :=
        congrArg Prod.snd hkey
      have hnn := pathMax_nonneg e'.g pm
      rw [hr, if_neg hfin] at hr1
      omega
  · intro hnop
    rcases hopt.1 with hinit | ⟨p, hp, -⟩
    · rw [hr, if_pos (show _ = INF by rw [hinit]; rfl)]
    · exfalso
      apply hnop
      refine ⟨p, ?_⟩
      rw [hSS, hcast] at hp
      exact isPath_congr_edges hedges hp
  · by_cases hfin : (labD e'.dist e'.bestMax t.toNat).1 = INF
    · left
      rw [hr, if_pos hfin]
    · right
      have hle : (labD e'.dist e'.bestMax t.toNat).1 ≤ INF :=
        lexLe_fst_le hopt.2.1
      obtain ⟨pm, -, hkey⟩ := optimal_reached hopt (lt_of_le_of_ne hle hfin)
      have hB : pathMax e'.g pm = (labD e'.dist e'.bestMax t.toNat).2 :=
        congrArg Prod.snd hkey
      have hnn := pathMax_nonneg e'.g pm
      rw [hr, if_neg hfin]
      omega

theorem ask_minus_one_iff_unreachable_witness :
    ∃ e' r, (mkLexiSSSP (mkGraph 1) 0).ask 0 = some (e', r) ∧
      (r = -1 ↔ ¬ ∃ p, IsPath (mkLexiSSSP (mkGraph 1) 0).g 0 0 p) ∧
      (r = -1 ∨ 0 ≤ r) :=
  ask_minus_one_iff_unreachable
    (show Reach 1 0 [] (mkLexiSSSP (mkGraph 1) 0) from rfl)
    (fun c hc => absurd hc (List.not_mem_nil c)) (by decide) (by decide)
    (fun p hp => by
      cases hp with
      | nil => exact inf_pos
      | cons he ha hu htail => exact absurd (List.get?_mem he) (List.not_mem_nil _))

/-- C10: On every reachable engine state with non-negative source,
asking the source node itself always returns the bottleneck `0`, never `-1`:
`recompute` seeds the source with `(0, 0)` and no path key with non-negative
weights beats `(0, 0)` lexicographically. -/
theorem ask_source_always_zero {n S : Int} {cs : List Cmd} {e : LexiSSSP}
    (hre : Reach n S cs e) (hok : ∀ c ∈ cs, Cmd.ok c) (hS : 0 ≤ S) :
    askVal e S = some 0 := by
  obtain ⟨hG, hSe⟩ := reach_goodEngine hre hok
  have hS0 : 0 ≤ e.S := by rw [hSe]; exact hS
  obtain ⟨e', r, hask⟩ := ask_total hG hS hS0
  obtain ⟨hG', -, hS', -, -, -, hlt, hopt, hr⟩ := ask_elim hG hask
  have hcast : ((S.toNat : Int)) = S := Int.toNat_of_nonneg hS
  have hnil : IsPath e'.g e'.S ((S.toNat : Int)) [] := by
    rw [hS', hSe, hcast]
    exact IsPath.nil S
  have hub := hopt.2.2 [] hnil
  rw [pathKey_nil] at hub
  have hfst : (labD e'.dist e'.bestMax S.toNat).1 ≤ 0 := lexLe_fst_le hub
  have hip := inf_pos
  have hfin : (labD e'.dist e'.bestMax S.toNat).1 < INF := by omega
  obtain ⟨pm, hpm, hkey⟩ := optimal_reached hopt hfin
  have hA : pathSum e'.g pm = (labD e'.dist e'.bestMax S.toNat).1 :=
    congrArg Prod.fst hkey
  have hB : pathMax e'.g pm = (labD e'.dist e'.bestMax S.toNat).2 :=
    congrArg Prod.snd hkey
  have hsnn : 0 ≤ pathSum e'.g pm := pathSum_nonneg_of_isPath hG'.1.1 hpm
  have hmnn : 0 ≤ pathMax e'.g pm := pathMax_nonneg e'.g pm
  have hsnd0 : (labD e'.dist e'.bestMax S.toNat).2 = 0 := by
    rcases hub with hlt' | ⟨-, h2⟩
    · have hlt2 : (labD e'.dist e'.bestMax S.toNat).1 < 0 := hlt'
      omega
    · have h2' : (labD e'.dist e'.bestMax S.toNat).2 ≤ 0 := h2
      omega
  have hr0 : r = 0 := by
    rw [hr, if_neg (by omega), hsnd0]
  show (e.ask S).map (fun x => x.2) = some 0
  rw [hask, hr0]
  rfl

theorem ask_source_always_zero_witness :
    askVal (mkLexiSSSP (mkGraph 0) 0) 0 = some 0 :=
  ask_source_always_zero
    (show Reach 0 0 [] (mkLexiSSSP (mkGraph 0) 0) from rfl)
    (fun c hc => absurd hc (List.not_mem_nil c)) (by decide)

end LexiPath
